import Mathlib

/-!
Shallow embedding of `src/target/target_flash.c` (Black Magic Debug project):
buffered target flash interaction routines.

Modelling conventions:
* Machine addresses (`target_addr_t`, a `uint32_t`) and sizes are modelled as `Nat`;
  the bit-twiddling alignment expression `addr & ~(sz - 1U)` is modelled exactly
  (including its 32-bit wrap-around on `sz = 0`) by `TargetFlash.alignDown`.
* The device-specific primitives (`f->erase`, `f->write`, `f->prepare`, `f->done`,
  `t->enter_flash_mode`, `t->exit_flash_mode`, `target_reset`, `malloc`) are external
  collaborators.  Their success/failure is supplied by an oracle `TargetFlash.Env`,
  and each invocation is recorded in an event trace (`TargetFlash.Event`), carrying
  the exact arguments the C code passes (for `write`: the actual bytes handed over).
* A region's scratch buffer (`f->buf`, `writebufsize` bytes of heap memory) is
  modelled as `Option (Nat → Nat)`: `none` for the `NULL` pointer, otherwise the
  byte at each offset.  `free` becomes resetting to `none`.
* Stateful C functions become pure functions `state → result × state × trace`.
* The C `while` loops advance by a per-iteration progress amount that is positive
  whenever the relevant size field is positive; each loop is defined by recursion
  on the remaining length, with an (unreachable for positive sizes, see the
  progress lemmas below) early exit where the C code would not make progress.
-/

namespace TargetFlash

/-- `UINT32_MAX`, the sentinel stored in `buf_addr_base`/`buf_addr_low` meaning
"no active buffer segment". -/
def UINT32_MAX : Nat := 2 ^ 32 - 1

/-- The C expression `addr & ~(sz - 1U)` evaluated in 32-bit unsigned arithmetic:
`~(sz - 1U)` is `2^32 - sz` for `1 ≤ sz ≤ 2^32` and `0` for `sz = 0`. -/
def alignDown (addr sz : Nat) : Nat :=
  Nat.land addr (2 ^ 32 - 1 - (sz + 2 ^ 32 - 1) % 2 ^ 32)

/-- One call to an external collaborator, with the arguments the core passed. -/
inductive Event where
  | resetCall : Event
  | enterHookCall : Event
  | exitHookCall : Event
  | prepareCall (region : Nat) : Event
  | doneCall (region : Nat) : Event
  | eraseCall (region : Nat) (addr len : Nat) : Event
  | writeCall (region : Nat) (addr : Nat) (data : List Nat) : Event
  deriving DecidableEq

/-- Oracle fixing the outcome of every external call (regions are identified by
their index in the target's region list). -/
structure Env where
  enterOk : Bool
  exitOk : Bool
  prepareOk : Nat → Bool
  doneOk : Nat → Bool
  eraseOk : Nat → Nat → Nat → Bool
  writeOk : Nat → Nat → Bool
  mallocOk : Bool
  junk : Nat

/-- `target_flash_s`: one flash region.  `hasPrepare`/`hasDone` model whether the
optional `prepare`/`done` function pointers are non-`NULL`. -/
structure FlashRegion where
  start : Nat
  length : Nat
  blocksize : Nat
  writesize : Nat
  writebufsize : Nat
  erased : Nat
  hasPrepare : Bool
  hasDone : Bool
  ready : Bool
  buf : Option (Nat → Nat)
  buf_addr_base : Nat
  buf_addr_low : Nat
  buf_addr_high : Nat
  deriving Inhabited

/-- The target: its chained flash regions (as a list) and the flash-mode flag.
`hasEnterHook`/`hasExitHook` model the optional `enter_flash_mode`/
`exit_flash_mode` function pointers. -/
structure Target where
  flash : List FlashRegion
  flash_mode : Bool
  hasEnterHook : Bool
  hasExitHook : Bool
  deriving Inhabited

/-- `target_flash_for_addr` (lines 44-50), with regions named by their list index:
first region whose half-open interval `[start, start + length)` contains `addr`. -/
def flash_for_addr_aux (regions : List FlashRegion) (idx addr : Nat) : Option Nat :=
  match regions with
  | [] => none
  | f :: rest =>
    if f.start ≤ addr ∧ addr < f.start + f.length then some idx
    else flash_for_addr_aux rest (idx + 1) addr

/-- `target_flash_for_addr t addr`, returning the index of the owning region. -/
def target_flash_for_addr (t : Target) (addr : Nat) : Option Nat :=
  flash_for_addr_aux t.flash 0 addr

/-- `target_enter_flash_mode` (lines 52-69). -/
def target_enter_flash_mode (env : Env) (t : Target) : Bool × Target × List Event :=
  if t.flash_mode then (true, t, [])
  else
    let r : Bool × List Event :=
      if t.hasEnterHook then (env.enterOk, [Event.enterHookCall])
      else (true, [Event.resetCall])
    (r.1, if r.1 then { t with flash_mode := true } else t, r.2)

/-- `target_exit_flash_mode` (lines 71-86): `flash_mode` is cleared regardless of
the hook's result. -/
def target_exit_flash_mode (env : Env) (t : Target) : Bool × Target × List Event :=
  if t.flash_mode then
    let r : Bool × List Event :=
      if t.hasExitHook then (env.exitOk, [Event.exitHookCall])
      else (true, [Event.resetCall])
    (r.1, { t with flash_mode := false }, r.2)
  else (true, t, [])

/-- `flash_prepare` (lines 88-101) on the region with index `i`. -/
def flash_prepare (env : Env) (i : Nat) (f : FlashRegion) :
    Bool × FlashRegion × List Event :=
  if f.ready then (true, f, [])
  else
    let r : Bool × List Event :=
      if f.hasPrepare then (env.prepareOk i, [Event.prepareCall i])
      else (true, [])
    (r.1, if r.1 then { f with ready := true } else f, r.2)

/-- `flash_done` (lines 103-120) on the region with index `i`: the scratch buffer
is freed and `ready` cleared regardless of the hook's result. -/
def flash_done (env : Env) (i : Nat) (f : FlashRegion) :
    Bool × FlashRegion × List Event :=
  if f.ready then
    let r : Bool × List Event :=
      if f.hasDone then (env.doneOk i, [Event.doneCall i])
      else (true, [])
    let f1 := if f.buf.isSome then { f with buf := none } else f
    (r.1, { f1 with ready := false }, r.2)
  else (true, f, [])

/-- The write-out loop of `flash_buffered_flush` (lines 269-275): hand
`writesize`-byte chunks of the scratch buffer to the region's `write` primitive
until `len` bytes are covered.  (For `ws = 0` the C loop would not terminate;
that case never arises for a positive `writesize`.) -/
def flushWriteLoop (env : Env) (i ws : Nat) (buf : Nat → Nat)
    (srcOff addr len : Nat) : Bool × List Event :=
  if len = 0 then (true, [])
  else if ws = 0 then (true, [])
  else
    let data := (List.range ws).map fun k => buf (srcOff + k)
    let rest := flushWriteLoop env i ws buf (srcOff + ws) (addr + ws) (len - min len ws)
    (env.writeOk i addr && rest.1, Event.writeCall i addr data :: rest.2)
termination_by len
decreasing_by omega

/-- `flash_buffered_flush` (lines 254-283). -/
def flash_buffered_flush (env : Env) (i : Nat) (f : FlashRegion) :
    Bool × FlashRegion × List Event :=
  match f.buf with
  | none => (true, f, [])
  | some buf =>
    if f.buf_addr_base ≠ UINT32_MAX ∧ f.buf_addr_low ≠ UINT32_MAX ∧
        f.buf_addr_low < f.buf_addr_high then
      let p := flash_prepare env i f
      if p.1 then
        let aligned := alignDown f.buf_addr_low f.writesize
        let w := flushWriteLoop env i f.writesize buf (aligned - f.buf_addr_base)
          aligned (f.buf_addr_high - aligned)
        (w.1, { p.2.1 with buf_addr_base := UINT32_MAX, buf_addr_low := UINT32_MAX,
                           buf_addr_high := 0 }, p.2.2 ++ w.2)
      else (false, p.2.1, p.2.2)
    else (true, f, [])

/-- The in-page offset `dest % f->writebufsize` of line 237. -/
def copy_off (f : FlashRegion) (dest : Nat) : Nat :=
  dest % f.writebufsize

/-- The chunk length `MIN(f->writebufsize - offset, len)` of line 238. -/
def copy_chunk (f : FlashRegion) (dest len : Nat) : Nat :=
  min (f.writebufsize - copy_off f dest) len

/-- `memcpy(buf + offset, src, data.length)` on a function-modelled buffer. -/
def bufCopy (buf : Nat → Nat) (offset : Nat) (data : List Nat) : Nat → Nat :=
  fun o => if offset ≤ o ∧ o < offset + data.length then data.getD (o - offset) 0 else buf o

/-- The copy loop of `flash_buffered_write` (lines 225-250).  `src` is the
caller's byte list (the C pointer plus the remaining `len`; chunk advance
`src += local_len` becomes `List.drop`).  For `writebufsize = 0` the C code is
undefined (`dest % 0`); there the chunk length is 0 and the loop exits early. -/
def bw_loop (env : Env) (i : Nat) (f : FlashRegion) (dest : Nat) (src : List Nat)
    (len : Nat) : Bool × FlashRegion × List Event :=
  if len = 0 then (true, f, [])
  else
    let base_addr := alignDown dest f.writebufsize
    -- lines 229-235: on base change, flush, then re-base and memset to erased
    let step : Bool × FlashRegion × List Event :=
      if base_addr = f.buf_addr_base then (true, f, [])
      else
        let fl := flash_buffered_flush env i f
        let g := fl.2.1
        (fl.1, { g with buf_addr_base := base_addr,
                        buf := g.buf.map (fun _ => (fun _ => g.erased)) }, fl.2.2)
    let f1 := step.2.1
    let local_len := copy_chunk f1 dest len
    -- lines 241-245: memcpy into the scratch buffer, then widen the dirty range
    let f2 : FlashRegion := { f1 with
      buf := f1.buf.map fun b => bufCopy b (copy_off f1 dest) (src.take local_len),
      buf_addr_low := min f1.buf_addr_low dest,
      buf_addr_high := max f1.buf_addr_high (dest + local_len) }
    if h : len - local_len < len then
      let rest := bw_loop env i f2 (dest + local_len) (src.drop local_len) (len - local_len)
      (step.1 && rest.1, rest.2.1, step.2.2 ++ rest.2.2)
    else (step.1, f2, step.2.2)
termination_by len
decreasing_by exact h

/-- `flash_buffered_write` (lines 210-252): lazy allocation of the scratch
buffer (`malloc` returns `writebufsize` bytes of unspecified content, modelled
as the constant `env.junk`), then the copy loop. -/
def flash_buffered_write (env : Env) (i : Nat) (f : FlashRegion) (dest : Nat)
    (src : List Nat) (len : Nat) : Bool × FlashRegion × List Event :=
  match f.buf with
  | some _ => bw_loop env i f dest src len
  | none =>
    if env.mallocOk then
      bw_loop env i
        { f with buf := some fun _ => env.junk, buf_addr_base := UINT32_MAX,
                 buf_addr_low := UINT32_MAX, buf_addr_high := 0 }
        dest src len
    else (false, f, [])

/-- The cross-region loop of `target_flash_erase` (lines 136-138): `flash_done`
on every region except the one with index `skip`; `j` is the index of the first
region in `regions`. -/
def doneOthers (env : Env) (regions : List FlashRegion) (j skip : Nat) :
    Bool × List FlashRegion × List Event :=
  match regions with
  | [] => (true, [], [])
  | f :: rest =>
    let s : Bool × FlashRegion × List Event :=
      if j = skip then (true, f, []) else flash_done env j f
    let r := doneOthers env rest (j + 1) skip
    (s.1 && r.1, s.2.1 :: r.2.1, s.2.2 ++ r.2.2)

/-- The cross-region loop of `target_flash_write` (lines 170-175):
`flash_buffered_flush` then `flash_done` on every region except index `skip`. -/
def flushDoneOthers (env : Env) (regions : List FlashRegion) (j skip : Nat) :
    Bool × List FlashRegion × List Event :=
  match regions with
  | [] => (true, [], [])
  | f :: rest =>
    let s : Bool × FlashRegion × List Event :=
      if j = skip then (true, f, [])
      else
        let fl := flash_buffered_flush env j f
        let d := flash_done env j fl.2.1
        (fl.1 && d.1, d.2.1, fl.2.2 ++ d.2.2)
    let r := flushDoneOthers env rest (j + 1) skip
    (s.1 && r.1, s.2.1 :: r.2.1, s.2.2 ++ r.2.2)

/-- The loop of `target_flash_complete` (lines 201-204): flush then retire every
region. -/
def flushDoneAll (env : Env) (regions : List FlashRegion) (j : Nat) :
    Bool × List FlashRegion × List Event :=
  match regions with
  | [] => (true, [], [])
  | f :: rest =>
    let fl := flash_buffered_flush env j f
    let d := flash_done env j fl.2.1
    let r := flushDoneAll env rest (j + 1)
    (fl.1 && d.1 && r.1, d.2.1 :: r.2.1, fl.2.2 ++ d.2.2 ++ r.2.2)

/-- The `while (len)` loop of `target_flash_erase` (lines 128-154), carrying the
accumulated `ret`.  The per-iteration advance `local_end_addr - addr` is positive
whenever `blocksize ≥ 1` and `addr < 2^32`; the C loop would otherwise not
terminate (the early exit below is unreachable in that case). -/
def erase_loop (env : Env) (t : Target) (addr len : Nat) (ret : Bool) :
    Bool × Target × List Event :=
  if len = 0 then (ret, t, [])
  else
    match target_flash_for_addr t addr with
    | none => (false, t, [])
    | some i =>
      let f := t.flash.getD i default
      let o := doneOthers env t.flash 0 i
      let t1 : Target := { t with flash := o.2.1 }
      let local_start := alignDown addr f.blocksize
      let local_end := local_start + f.blocksize
      let p := flash_prepare env i (t1.flash.getD i default)
      let t2 : Target := { t1 with flash := t1.flash.set i p.2.1 }
      if p.1 then
        let ret1 := ret && o.1 && env.eraseOk i local_start f.blocksize
        let ev := o.2.2 ++ p.2.2 ++ [Event.eraseCall i local_start f.blocksize]
        let len1 := len - min (local_end - addr) len
        if len1 = 0 then
          let d := flash_done env i (t2.flash.getD i default)
          (ret1 && d.1, { t2 with flash := t2.flash.set i d.2.1 }, ev ++ d.2.2)
        else
          if h : len1 < len then
            let r := erase_loop env t2 local_end len1 ret1
            (r.1, r.2.1, ev ++ r.2.2)
          else (ret1, t2, ev)
      else (false, t2, o.2.2 ++ p.2.2)
termination_by len
decreasing_by exact h

/-- `target_flash_erase` (lines 122-156). -/
def target_flash_erase (env : Env) (t : Target) (addr len : Nat) :
    Bool × Target × List Event :=
  let e := target_enter_flash_mode env t
  if e.1 then
    let r := erase_loop env e.2.1 addr len true
    (r.1, r.2.1, e.2.2 ++ r.2.2)
  else (false, e.2.1, e.2.2)

/-- The `while (len)` loop of `target_flash_write` (lines 164-191).  The
per-iteration advance `local_length` is positive whenever the owning region
contains `dest` (so the early exit is unreachable). -/
def write_loop (env : Env) (t : Target) (dest : Nat) (src : List Nat) (len : Nat)
    (ret : Bool) : Bool × Target × List Event :=
  if len = 0 then (ret, t, [])
  else
    match target_flash_for_addr t dest with
    | none => (false, t, [])
    | some i =>
      let o := flushDoneOthers env t.flash 0 i
      let f := o.2.1.getD i default
      let local_end := min (dest + len) (f.start + f.length)
      let local_length := local_end - dest
      let w := flash_buffered_write env i f dest (src.take local_length) local_length
      let regs2 := o.2.1.set i w.2.1
      -- lines 186-190: flush and retire when the end of the region is reached
      let e : Bool × List FlashRegion × List Event :=
        if local_end = f.start + f.length then
          let fl := flash_buffered_flush env i (regs2.getD i default)
          let d := flash_done env i fl.2.1
          (fl.1 && d.1, regs2.set i d.2.1, fl.2.2 ++ d.2.2)
        else (true, regs2, [])
      let ret1 := ret && o.1 && w.1 && e.1
      let t1 : Target := { t with flash := e.2.1 }
      if h : len - local_length < len then
        let r := write_loop env t1 local_end (src.drop local_length) (len - local_length) ret1
        (r.1, r.2.1, o.2.2 ++ w.2.2 ++ e.2.2 ++ r.2.2)
      else (ret1, t1, o.2.2 ++ w.2.2 ++ e.2.2)
termination_by len
decreasing_by exact h

/-- `target_flash_write` (lines 158-193). -/
def target_flash_write (env : Env) (t : Target) (dest : Nat) (src : List Nat)
    (len : Nat) : Bool × Target × List Event :=
  let e := target_enter_flash_mode env t
  if e.1 then
    let r := write_loop env e.2.1 dest src len true
    (r.1, r.2.1, e.2.2 ++ r.2.2)
  else (false, e.2.1, e.2.2)

/-- `target_flash_complete` (lines 195-208): fails (with no device operation)
when not in flash mode; otherwise flushes and retires every region and exits
flash mode (the exit result is discarded). -/
def target_flash_complete (env : Env) (t : Target) : Bool × Target × List Event :=
  if t.flash_mode then
    let r := flushDoneAll env t.flash 0
    let t1 : Target := { t with flash := r.2.1 }
    let x := target_exit_flash_mode env t1
    (r.1, x.2.1, r.2.2 ++ x.2.2)
  else (false, t, [])

/-! ### Derived notions used to state the claims -/

/-- The memory image delivered to the devices: replay all `write` calls of a
trace in order (later calls overwrite earlier ones). -/
def reconstruct (evs : List Event) : Nat → Option Nat :=
  evs.foldl (fun m e =>
    match e with
    | Event.writeCall _ addr data =>
        fun a => if addr ≤ a ∧ a < addr + data.length then some (data.getD (a - addr) 0) else m a
    | _ => m) (fun _ => none)

/-- The bytes the caller supplied, replayed in request order (a request is a
destination address together with the byte list to write there). -/
def callerMap (reqs : List (Nat × List Nat)) : Nat → Option Nat :=
  reqs.foldl (fun m r =>
    fun a => if r.1 ≤ a ∧ a < r.1 + r.2.length then some (r.2.getD (a - r.1) 0) else m a)
    (fun _ => none)

/-- Run a sequence of `target_flash_write` requests, accumulating the trace. -/
def run_writes (env : Env) (t : Target) (reqs : List (Nat × List Nat)) :
    Target × List Event :=
  match reqs with
  | [] => (t, [])
  | r :: rest =>
    let w := target_flash_write env t r.1 r.2 r.2.length
    let k := run_writes env w.2.1 rest
    (k.1, w.2.2 ++ k.2)

/-- A write session: a sequence of `target_flash_write` requests followed by the
final `target_flash_complete` that flushes all buffered data. -/
def run_session (env : Env) (t : Target) (reqs : List (Nat × List Nat)) :
    Target × List Event :=
  let w := run_writes env t reqs
  let c := target_flash_complete env w.1
  (c.2.1, w.2 ++ c.2.2)

/-- "The region has an active buffer segment": the guard of
`flash_buffered_flush` (lines 257-258). -/
def segActive (f : FlashRegion) : Prop :=
  f.buf.isSome ∧ f.buf_addr_base ≠ UINT32_MAX ∧ f.buf_addr_low ≠ UINT32_MAX ∧
    f.buf_addr_low < f.buf_addr_high

instance (f : FlashRegion) : Decidable (segActive f) := by
  unfold segActive; infer_instance

/-! ### Sample data for witnesses and counterexamples -/

/-- An oracle on which every external call succeeds. -/
def envOk : Env :=
  { enterOk := true, exitOk := true, prepareOk := fun _ => true,
    doneOk := fun _ => true, eraseOk := fun _ _ _ => true,
    writeOk := fun _ _ => true, mallocOk := true, junk := 7 }

/-- An oracle on which every `write` primitive call fails. -/
def envWFail : Env :=
  { envOk with writeOk := fun _ _ => false }

/-- A sample flash region: `[0x08000000, 0x08001000)`, blocksize `0x400`,
writesize `0x10`, writebufsize `0x100`, erased fill `0xff`. -/
def sampleRegion : FlashRegion :=
  { start := 0x08000000, length := 0x1000, blocksize := 0x400, writesize := 0x10,
    writebufsize := 0x100, erased := 0xff, hasPrepare := true, hasDone := true,
    ready := false, buf := none, buf_addr_base := 0, buf_addr_low := 0,
    buf_addr_high := 0 }

/-- A sample single-region target, already in flash mode. -/
def sampleTarget : Target :=
  { flash := [sampleRegion], flash_mode := true, hasEnterHook := false,
    hasExitHook := false }

/-- A small region for concrete counterexamples: `[0, 0x1000)`, blocksize 16,
writesize 4, writebufsize 4, no prepare/done hooks. -/
def tinyRegion : FlashRegion :=
  { start := 0, length := 0x1000, blocksize := 16, writesize := 4,
    writebufsize := 4, erased := 0xff, hasPrepare := false, hasDone := false,
    ready := false, buf := none, buf_addr_base := 0, buf_addr_low := 0,
    buf_addr_high := 0 }

/-- A single-region target over `tinyRegion`, already in flash mode. -/
def tinyTarget : Target :=
  { flash := [tinyRegion], flash_mode := true, hasEnterHook := false,
    hasExitHook := false }

/-- An oracle on which everything succeeds except the `erase` primitive at
address 16 (the middle block of `tinyRegion` erases below). -/
def envEraseMidFail : Env :=
  { enterOk := true, exitOk := true, prepareOk := fun _ => true,
    doneOk := fun _ => true, eraseOk := fun _ a _ => decide (a ≠ 16),
    writeOk := fun _ _ => true, mallocOk := true, junk := 7 }

/-- An oracle on which every external call fails. -/
def envFail : Env :=
  { enterOk := false, exitOk := false, prepareOk := fun _ => false,
    doneOk := fun _ => false, eraseOk := fun _ _ _ => false,
    writeOk := fun _ _ => false, mallocOk := false, junk := 0 }

/-- A constant byte function, used as concrete scratch-buffer content. -/
def constByte : Nat → Nat := fun _ => 0xab

/-- `tinyRegion` holding an active, already prepared buffer segment over page 0
with dirty range `[1, 3)`. -/
def pendingRegion : FlashRegion :=
  { tinyRegion with ready := true, buf := some constByte, buf_addr_base := 0,
                    buf_addr_low := 1, buf_addr_high := 3 }

/-- Two adjacent regions for the cross-region flush-ordering witness:
`[0, 16)` and `[16, 32)`, writesize 4, writebufsize 8, both with prepare and
done hooks. -/
def twoRegion0 : FlashRegion :=
  { start := 0, length := 16, blocksize := 16, writesize := 4,
    writebufsize := 8, erased := 0xff, hasPrepare := true, hasDone := true,
    ready := false, buf := none, buf_addr_base := 0, buf_addr_low := 0,
    buf_addr_high := 0 }

/-- The second of the two adjacent regions, `[16, 32)`. -/
def twoRegion1 : FlashRegion :=
  { twoRegion0 with start := 16 }

/-- A two-region target, already in flash mode. -/
def twoTarget : Target :=
  { flash := [twoRegion0, twoRegion1], flash_mode := true,
    hasEnterHook := false, hasExitHook := false }

/-- Power of two (the spec requires `blocksize` and `writebufsize` to be powers
of two; the C alignment idiom `addr & ~(sz - 1U)` relies on it). -/
def Pow2 (n : Nat) : Prop := ∃ k, n = 2 ^ k

/-- Is the event a call to some region's `erase` primitive? -/
def isErase (e : Event) : Bool :=
  match e with
  | Event.eraseCall _ _ _ => true
  | _ => false

/-- The calls to `erase` primitives contained in a trace, in order. -/
def eraseEvents (evs : List Event) : List Event :=
  evs.filter isErase

/-- Is the event a call to region `j`'s `write` primitive? -/
def isWriteTo (j : Nat) (e : Event) : Bool :=
  match e with
  | Event.writeCall r _ _ => r = j
  | _ => false

/-- Is the event a call to any region's `write` primitive? -/
def isWrite (e : Event) : Bool :=
  match e with
  | Event.writeCall _ _ _ => true
  | _ => false

/-! ## Basic lemmas -/

theorem two_pow_sub_two_pow_eq_shift (n k : Nat) (hk : k ≤ n) :
    2 ^ n - 2 ^ k = (2 ^ (n - k) - 1) <<< k := by
  rw [Nat.shiftLeft_eq, Nat.sub_mul, Nat.one_mul, ← Nat.pow_add]
  rw [Nat.sub_add_cancel hk]

theorem land_two_pow_sub (a n k : Nat) (hk : k ≤ n) (ha : a < 2 ^ n) :
    Nat.land a (2 ^ n - 2 ^ k) = a / 2 ^ k * 2 ^ k := by
  have hrhs : a / 2 ^ k * 2 ^ k = (a >>> k) <<< k := by
    rw [Nat.shiftLeft_eq, Nat.shiftRight_eq_div_pow]
  apply Nat.eq_of_testBit_eq
  intro j
  have hland : Nat.land a (2 ^ n - 2 ^ k) = a &&& (2 ^ n - 2 ^ k) := rfl
  rw [hland, hrhs, Nat.testBit_land, two_pow_sub_two_pow_eq_shift n k hk,
    Nat.testBit_shiftLeft, Nat.testBit_shiftLeft, Nat.testBit_shiftRight,
    Nat.testBit_two_pow_sub_one]
  by_cases hjk : k ≤ j
  · have hj : k + (j - k) = j := by omega
    rw [hj]
    by_cases hjn : j < n
    · have hs : j - k < n - k := by omega
      simp [hjk, hs, Bool.and_comm]
    · have : a.testBit j = false := by
        apply Nat.testBit_lt_two_pow
        calc a < 2 ^ n := ha
          _ ≤ 2 ^ j := Nat.pow_le_pow_right (by omega) (by omega)
      simp [this]
  · simp [hjk]

theorem alignDown_pow2 (a k : Nat) (hk : k ≤ 32) (ha : a < 2 ^ 32) :
    alignDown a (2 ^ k) = a / 2 ^ k * 2 ^ k := by
  have h1 : (2 ^ k + 2 ^ 32 - 1) % 2 ^ 32 = 2 ^ k - 1 := by
    have hp : 0 < (2 : Nat) ^ k := Nat.pos_pow_of_pos k (by omega)
    have hle : (2 : Nat) ^ k ≤ 2 ^ 32 := Nat.pow_le_pow_right (by omega) hk
    have : 2 ^ k + 2 ^ 32 - 1 = (2 ^ k - 1) + 2 ^ 32 := by omega
    rw [this, Nat.add_mod_right]
    exact Nat.mod_eq_of_lt (by omega)
  have h2 : 2 ^ 32 - 1 - (2 ^ k - 1) = 2 ^ 32 - 2 ^ k := by
    have hp : 0 < (2 : Nat) ^ k := Nat.pos_pow_of_pos k (by omega)
    omega
  unfold alignDown
  rw [h1, h2]
  exact land_two_pow_sub a 32 k hk ha

theorem alignDown_le (a k : Nat) (hk : k ≤ 32) (ha : a < 2 ^ 32) :
    alignDown a (2 ^ k) ≤ a := by
  rw [alignDown_pow2 a k hk ha]
  exact Nat.div_mul_le_self a (2 ^ k)

theorem lt_alignDown_add (a k : Nat) (hk : k ≤ 32) (ha : a < 2 ^ 32) :
    a < alignDown a (2 ^ k) + 2 ^ k := by
  rw [alignDown_pow2 a k hk ha]
  have hp : 0 < (2 : Nat) ^ k := Nat.pos_pow_of_pos k (by omega)
  have h1 := Nat.div_add_mod a (2 ^ k)
  have h2 := Nat.mod_lt a hp
  have h3 : a / 2 ^ k * 2 ^ k = 2 ^ k * (a / 2 ^ k) := Nat.mul_comm _ _
  omega

theorem alignDown_eq_sub_mod (a k : Nat) (hk : k ≤ 32) (ha : a < 2 ^ 32) :
    alignDown a (2 ^ k) = a - a % 2 ^ k := by
  rw [alignDown_pow2 a k hk ha]
  have h1 := Nat.div_add_mod a (2 ^ k)
  have h3 : a / 2 ^ k * 2 ^ k = 2 ^ k * (a / 2 ^ k) := Nat.mul_comm _ _
  omega

theorem flash_prepare_preserves (env : Env) (i : Nat) (f : FlashRegion) :
    (flash_prepare env i f).2.1.buf = f.buf ∧
    (flash_prepare env i f).2.1.buf_addr_base = f.buf_addr_base ∧
    (flash_prepare env i f).2.1.buf_addr_low = f.buf_addr_low ∧
    (flash_prepare env i f).2.1.buf_addr_high = f.buf_addr_high ∧
    (flash_prepare env i f).2.1.start = f.start ∧
    (flash_prepare env i f).2.1.length = f.length ∧
    (flash_prepare env i f).2.1.blocksize = f.blocksize ∧
    (flash_prepare env i f).2.1.writesize = f.writesize ∧
    (flash_prepare env i f).2.1.writebufsize = f.writebufsize ∧
    (flash_prepare env i f).2.1.erased = f.erased ∧
    (flash_prepare env i f).2.1.hasPrepare = f.hasPrepare ∧
    (flash_prepare env i f).2.1.hasDone = f.hasDone := by
  by_cases hr : f.ready = true <;> by_cases hp : f.hasPrepare = true <;>
    by_cases ho : env.prepareOk i = true <;> simp [flash_prepare, hr, hp, ho]

theorem flash_prepare_ready (env : Env) (i : Nat) (f : FlashRegion)
    (h : (flash_prepare env i f).1 = true) :
    (flash_prepare env i f).2.1.ready = true := by
  by_cases hr : f.ready = true
  · unfold flash_prepare; simp [hr]
  · unfold flash_prepare at h ⊢
    simp [hr] at h ⊢
    simp [h]

theorem flash_done_ready_false (env : Env) (i : Nat) (f : FlashRegion) :
    (flash_done env i f).2.1.ready = false := by
  by_cases hr : f.ready = true <;> by_cases hd : f.hasDone = true <;>
    by_cases hb : f.buf.isSome = true <;> simp [flash_done, hr, hd, hb]

theorem flash_done_on_not_ready (env : Env) (i : Nat) (f : FlashRegion)
    (h : f.ready = false) : flash_done env i f = (true, f, []) := by
  simp [flash_done, h]

/-! ## Claim C5 -/

/-- C5: for every target whose `flash_mode` flag is false, `target_flash_complete`
returns `false`, performs no device operation (empty trace), and leaves the
target (and hence every region) unchanged. -/
theorem C5_complete_outside_flash_mode (env : Env) (t : Target)
    (h : t.flash_mode = false) :
    target_flash_complete env t = (false, t, []) := by
  simp [target_flash_complete, h]

theorem C5_witness :
    (Target.mk [pendingRegion] false false false).flash_mode = false ∧
    target_flash_complete envOk (Target.mk [pendingRegion] false false false) =
      (false, Target.mk [pendingRegion] false false false, []) :=
  ⟨rfl, C5_complete_outside_flash_mode envOk _ rfl⟩

/-! ## Claim C7 -/

/-- C7: `target_exit_flash_mode` clears `flash_mode` regardless of the hook's
result whenever the target was in flash mode, and is a no-op success (no hook,
no reset) when it was not. -/
theorem C7_exit_flash_mode (env : Env) (t : Target) :
    (t.flash_mode = true → (target_exit_flash_mode env t).2.1.flash_mode = false) ∧
    (t.flash_mode = false → target_exit_flash_mode env t = (true, t, [])) := by
  constructor <;> intro h <;> simp [target_exit_flash_mode, h]

theorem C7_witness :
    (target_exit_flash_mode envFail
      (Target.mk [] true false true)).2.1.flash_mode = false ∧
    target_exit_flash_mode envOk (Target.mk [] false false true) =
      (true, Target.mk [] false false true, []) :=
  ⟨(C7_exit_flash_mode envFail (Target.mk [] true false true)).1 rfl,
   (C7_exit_flash_mode envOk (Target.mk [] false false true)).2 rfl⟩

/-! ## Claim C9 -/

/-- C9: in the copy loop of `flash_buffered_write`, the in-page offset
`dest % writebufsize` plus the chunk length `MIN(writebufsize - offset, len)`
never exceeds `writebufsize`, so the `memcpy` into the scratch buffer stays
inside the `writebufsize`-byte allocation. -/
theorem C9_copy_stays_in_buffer (f : FlashRegion) (dest len : Nat)
    (h : 0 < f.writebufsize) :
    copy_off f dest + copy_chunk f dest len ≤ f.writebufsize := by
  unfold copy_chunk copy_off
  have := Nat.mod_lt dest h
  omega

theorem C9_witness :
    0 < sampleRegion.writebufsize ∧
    copy_off sampleRegion 0x080000f8 + copy_chunk sampleRegion 0x080000f8 16 ≤
      sampleRegion.writebufsize :=
  ⟨by decide, C9_copy_stays_in_buffer sampleRegion 0x080000f8 16 (by decide)⟩

/-! ## Claim C4 -/

/-- C4: `flash_prepare` and `flash_done` are idempotent.  After a successful
`flash_prepare`, a second call is a hook-free no-op success and the two calls
together invoke the prepare hook at most once.  A second `flash_done` is always
a hook-free no-op success, the two calls invoke the done hook at most once, and
after retiring a ready region the scratch buffer pointer is `NULL` (`none`) and
`ready` is false, so the buffer is never freed twice. -/
theorem C4_prepare_done_idempotent (env : Env) (i : Nat) (f : FlashRegion) :
    ((flash_prepare env i f).1 = true →
      flash_prepare env i (flash_prepare env i f).2.1 =
        (true, (flash_prepare env i f).2.1, []) ∧
      ((flash_prepare env i f).2.2 ++
        (flash_prepare env i (flash_prepare env i f).2.1).2.2).count
          (Event.prepareCall i) ≤ 1) ∧
    flash_done env i (flash_done env i f).2.1 =
      (true, (flash_done env i f).2.1, []) ∧
    ((flash_done env i f).2.2 ++
      (flash_done env i (flash_done env i f).2.1).2.2).count (Event.doneCall i) ≤ 1 ∧
    (f.ready = true →
      (flash_done env i f).2.1.buf = none ∧ (flash_done env i f).2.1.ready = false) := by
  have hdr := flash_done_ready_false env i f
  have hdone2 := flash_done_on_not_ready env i _ hdr
  refine ⟨fun h => ?_, hdone2, ?_, fun h => ⟨?_, hdr⟩⟩
  · have hr := flash_prepare_ready env i f h
    have h2 : flash_prepare env i (flash_prepare env i f).2.1 =
        (true, (flash_prepare env i f).2.1, []) := by
      generalize hg : (flash_prepare env i f).2.1 = g at hr
      simp [flash_prepare, hr]
    refine ⟨h2, ?_⟩
    rw [h2]
    by_cases hf : f.ready = true <;> by_cases hp : f.hasPrepare = true <;>
      simp [flash_prepare, hf, hp]
  · rw [hdone2]
    by_cases hf : f.ready = true <;> by_cases hd : f.hasDone = true <;>
      by_cases hb : f.buf.isSome = true <;> simp [flash_done, hf, hd, hb]
  · by_cases hb : f.buf.isSome = true
    · by_cases hd : f.hasDone = true <;> simp [flash_done, h, hd, hb]
    · have hn : f.buf = none := Option.not_isSome_iff_eq_none.mp hb
      by_cases hd : f.hasDone = true <;> simp [flash_done, h, hd, hb, hn]

theorem C4_witness :
    (flash_prepare envOk 0 tinyRegion).1 = true ∧ tinyRegion.ready = true ∨
    ((flash_prepare envOk 0 sampleRegion).1 = true ∧
      flash_prepare envOk 0 (flash_prepare envOk 0 sampleRegion).2.1 =
        (true, (flash_prepare envOk 0 sampleRegion).2.1, []) ∧
      (flash_done envOk 0 pendingRegion).2.1.buf = none ∧
      (flash_done envOk 0 pendingRegion).2.1.ready = false) := by
  refine Or.inr ⟨by decide, ?_, ?_, ?_⟩
  · exact ((C4_prepare_done_idempotent envOk 0 sampleRegion).1 (by decide)).1
  · exact (((C4_prepare_done_idempotent envOk 0 pendingRegion).2.2.2) rfl).1
  · exact (((C4_prepare_done_idempotent envOk 0 pendingRegion).2.2.2) rfl).2

/-! ## Claim C6 -/

/-- C6: on a region with an active buffer segment (and successful preparation),
`flash_buffered_flush` resets the buffer sentinels — `buf_addr_base` and
`buf_addr_low` to the `UINT32_MAX` "none" sentinel and `buf_addr_high` to 0 —
for every oracle, i.e. whether the underlying `write` primitive calls succeed
or fail, and it leaves the buffer's contents untouched. -/
theorem C6_flush_resets_sentinels (env : Env) (i : Nat) (f : FlashRegion)
    (B : Nat → Nat) (hb : f.buf = some B) (hbase : f.buf_addr_base ≠ UINT32_MAX)
    (hlow : f.buf_addr_low ≠ UINT32_MAX) (hlh : f.buf_addr_low < f.buf_addr_high)
    (hp : (flash_prepare env i f).1 = true) :
    (flash_buffered_flush env i f).2.1.buf_addr_base = UINT32_MAX ∧
    (flash_buffered_flush env i f).2.1.buf_addr_low = UINT32_MAX ∧
    (flash_buffered_flush env i f).2.1.buf_addr_high = 0 ∧
    (flash_buffered_flush env i f).2.1.buf = some B := by
  unfold flash_buffered_flush
  simp only [hb]
  simp [hbase, hlow, hlh, hp, (flash_prepare_preserves env i f).1, hb]

theorem C6_witness :
    pendingRegion.buf = some constByte ∧
    pendingRegion.buf_addr_base ≠ UINT32_MAX ∧
    pendingRegion.buf_addr_low ≠ UINT32_MAX ∧
    pendingRegion.buf_addr_low < pendingRegion.buf_addr_high ∧
    (flash_prepare envWFail 0 pendingRegion).1 = true ∧
    (flash_buffered_flush envWFail 0 pendingRegion).2.1.buf_addr_base = UINT32_MAX ∧
    (flash_buffered_flush envWFail 0 pendingRegion).2.1.buf_addr_low = UINT32_MAX ∧
    (flash_buffered_flush envWFail 0 pendingRegion).2.1.buf_addr_high = 0 ∧
    (flash_buffered_flush envWFail 0 pendingRegion).2.1.buf = some constByte := by
  have h := C6_flush_resets_sentinels envWFail 0 pendingRegion constByte rfl
    (by decide) (by decide) (by decide) (by decide)
  exact ⟨rfl, by decide, by decide, by decide, by decide, h.1, h.2.1, h.2.2.1, h.2.2.2⟩

/-! ## Claim C10 -/

theorem erase_loop_flash_mode (env : Env) : ∀ (len : Nat) (t : Target) (addr : Nat)
    (ret : Bool), (erase_loop env t addr len ret).2.1.flash_mode = t.flash_mode := by
  intro len
  induction len using Nat.strong_induction_on with
  | _ len ih =>
    intro t addr ret
    rw [erase_loop]
    split
    · rfl
    · split
      · rfl
      · dsimp only
        split
        · split
          · rfl
          · split
            · exact ih _ (by assumption) _ _ _
            · rfl
        · rfl

theorem write_loop_flash_mode (env : Env) : ∀ (len : Nat) (t : Target) (dest : Nat)
    (src : List Nat) (ret : Bool),
    (write_loop env t dest src len ret).2.1.flash_mode = t.flash_mode := by
  intro len
  induction len using Nat.strong_induction_on with
  | _ len ih =>
    intro t dest src ret
    rw [write_loop]
    split
    · rfl
    · split
      · rfl
      · dsimp only
        split
        · exact ih _ (by assumption) _ _ _ _
        · rfl

theorem enter_flash_mode_sets (env : Env) (t : Target)
    (h : (target_enter_flash_mode env t).1 = true) :
    (target_enter_flash_mode env t).2.1.flash_mode = true := by
  by_cases hm : t.flash_mode = true
  · simp [target_enter_flash_mode, hm]
  · unfold target_enter_flash_mode at h ⊢
    simp [hm] at h ⊢
    simp [h]

/-- C10: neither `target_flash_erase` nor `target_flash_write` ever clears the
target's `flash_mode` flag: whenever `target_enter_flash_mode` succeeds (in
particular whenever the flag is already set), the flag is still set when the
call returns, whatever the call's boolean result; and `target_flash_complete`
(via `target_exit_flash_mode`) is the operation that clears it. -/
theorem C10_flash_mode_only_cleared_by_complete (env : Env) (t : Target)
    (addr len dest : Nat) (src : List Nat) (wlen : Nat) :
    ((target_enter_flash_mode env t).1 = true →
      (target_flash_erase env t addr len).2.1.flash_mode = true ∧
      (target_flash_write env t dest src wlen).2.1.flash_mode = true) ∧
    (t.flash_mode = true → (target_flash_complete env t).2.1.flash_mode = false) := by
  constructor
  · intro h
    constructor
    · unfold target_flash_erase
      simp only [h, if_true]
      rw [erase_loop_flash_mode]
      exact enter_flash_mode_sets env t h
    · unfold target_flash_write
      simp only [h, if_true]
      rw [write_loop_flash_mode]
      exact enter_flash_mode_sets env t h
  · intro h
    simp [target_flash_complete, target_exit_flash_mode, h]

/-! ## Helper lemmas for the erase and write paths -/

theorem flash_done_preserves (env : Env) (i : Nat) (f : FlashRegion) :
    (flash_done env i f).2.1.start = f.start ∧
    (flash_done env i f).2.1.length = f.length ∧
    (flash_done env i f).2.1.blocksize = f.blocksize ∧
    (flash_done env i f).2.1.writesize = f.writesize ∧
    (flash_done env i f).2.1.writebufsize = f.writebufsize ∧
    (flash_done env i f).2.1.erased = f.erased ∧
    (flash_done env i f).2.1.hasPrepare = f.hasPrepare ∧
    (flash_done env i f).2.1.hasDone = f.hasDone := by
  by_cases hr : f.ready = true <;> by_cases hd : f.hasDone = true <;>
    by_cases hb : f.buf.isSome = true <;> simp [flash_done, hr, hd, hb]

theorem eraseEvents_append (a b : List Event) :
    eraseEvents (a ++ b) = eraseEvents a ++ eraseEvents b := by
  simp [eraseEvents]

theorem eraseEvents_flash_prepare (env : Env) (i : Nat) (f : FlashRegion) :
    eraseEvents (flash_prepare env i f).2.2 = [] := by
  by_cases hr : f.ready = true <;> by_cases hp : f.hasPrepare = true <;>
    simp [flash_prepare, hr, hp, eraseEvents, isErase]

theorem eraseEvents_flash_done (env : Env) (i : Nat) (f : FlashRegion) :
    eraseEvents (flash_done env i f).2.2 = [] := by
  by_cases hr : f.ready = true <;> by_cases hd : f.hasDone = true <;>
    by_cases hb : f.buf.isSome = true <;> simp [flash_done, hr, hd, hb, eraseEvents, isErase]

theorem doneOthers_length (env : Env) (regs : List FlashRegion) (j skip : Nat) :
    (doneOthers env regs j skip).2.1.length = regs.length := by
  induction regs generalizing j with
  | nil => simp [doneOthers]
  | cons f rest ih => by_cases hj : j = skip <;> simp [doneOthers, hj, ih]

theorem doneOthers_get (env : Env) (regs : List FlashRegion) (j skip : Nat) :
    ∀ m, (doneOthers env regs j skip).2.1.get? m =
      (regs.get? m).map (fun g => if j + m = skip then g else (flash_done env (j + m) g).2.1) := by
  induction regs generalizing j with
  | nil => intro m; simp [doneOthers]
  | cons f rest ih =>
    intro m
    cases m with
    | zero =>
      by_cases hj : j = skip <;> simp [doneOthers, hj]
    | succ m =>
      have this1 := ih (j + 1) m
      have harith : j + 1 + m = j + (m + 1) := by omega
      rw [harith] at this1
      simp only [doneOthers, List.get?_cons_succ]
      exact this1

theorem doneOthers_ret (env : Env) (regs : List FlashRegion) (j skip : Nat)
    (h : ∀ m fm, regs.get? m = some fm → j + m ≠ skip → fm.ready = false) :
    (doneOthers env regs j skip).1 = true := by
  induction regs generalizing j with
  | nil => simp [doneOthers]
  | cons f rest ih =>
    have hrest : (doneOthers env rest (j + 1) skip).1 = true := by
      apply ih
      intro m fm hm hne
      have := h (m + 1) fm (by simpa using hm) (by omega)
      exact this
    by_cases hj : j = skip
    · subst hj
      simp [doneOthers, hrest]
    · have hf : f.ready = false := h 0 f (by simp) (by omega)
      simp [doneOthers, hj, hrest, flash_done_on_not_ready env j f hf]

theorem eraseEvents_doneOthers (env : Env) (regs : List FlashRegion) (j skip : Nat) :
    eraseEvents (doneOthers env regs j skip).2.2 = [] := by
  induction regs generalizing j with
  | nil => simp [doneOthers, eraseEvents]
  | cons f rest ih =>
    by_cases hj : j = skip <;>
      simp only [doneOthers, hj, if_true, if_false, eraseEvents_append, ih,
        eraseEvents_flash_done] <;>
      simp [eraseEvents]

theorem flash_for_addr_aux_spec (a : Nat) :
    ∀ (regions : List FlashRegion) (base i : Nat) (f : FlashRegion),
    regions.get? i = some f → f.start ≤ a → a < f.start + f.length →
    (∀ j fj, j < i → regions.get? j = some fj →
      ¬(fj.start ≤ a ∧ a < fj.start + fj.length)) →
    flash_for_addr_aux regions base a = some (base + i) := by
  intro regions
  induction regions with
  | nil => intro base i f h; simp at h
  | cons g rest ih =>
    intro base i f hget hlo hhi hnone
    cases i with
    | zero =>
      simp at hget
      subst hget
      simp [flash_for_addr_aux, hlo, hhi]
    | succ i =>
      have hg : ¬(g.start ≤ a ∧ a < g.start + g.length) :=
        hnone 0 g (by omega) (by simp)
      have := ih (base + 1) i f (by simpa using hget) hlo hhi
        (fun j fj hj hfj => hnone (j + 1) fj (by omega) (by simpa using hfj))
      simp only [flash_for_addr_aux, hg, if_false]
      rw [this]
      congr 1
      omega

theorem flash_prepare_succeeds (env : Env) (i : Nat) (f : FlashRegion)
    (h : f.hasPrepare = true → env.prepareOk i = true) :
    (flash_prepare env i f).1 = true := by
  by_cases hr : f.ready = true
  · simp [flash_prepare, hr]
  · by_cases hp : f.hasPrepare = true
    · simp [flash_prepare, hr, hp, h hp]
    · simp [flash_prepare, hr, hp]

theorem flash_done_succeeds (env : Env) (i : Nat) (f : FlashRegion)
    (h : f.hasDone = true → env.doneOk i = true) :
    (flash_done env i f).1 = true := by
  by_cases hr : f.ready = true
  · by_cases hd : f.hasDone = true
    · by_cases hb : f.buf.isSome = true <;> simp [flash_done, hr, hd, hb, h hd]
    · by_cases hb : f.buf.isSome = true <;> simp [flash_done, hr, hd, hb]
  · simp [flash_done, hr]

/-- Characterization of the `target_flash_erase` loop on a range contained in
the region with index `i` (geometry `[s, s + L)`, power-of-two blocksize
`2 ^ kb`), with disjoint, non-ready sibling regions and successful prepare/done
hooks for region `i`: the erase primitive is invoked exactly once per
`blocksize`-aligned block of the minimal cover of `[addr, addr + len)` (in
ascending order, with aligned start addresses and length `blocksize`), no other
erase call is made, and the result is the conjunction of the incoming `ret` and
all the individual block-erase results. -/
theorem erase_loop_spec (env : Env) (i s L kb : Nat) (hkb : kb ≤ 32)
    (hL : s + L ≤ 2 ^ 32) :
    ∀ len, 0 < len → ∀ (t : Target) (addr : Nat) (ret : Bool) (f : FlashRegion),
    t.flash.get? i = some f →
    f.start = s → f.length = L → f.blocksize = 2 ^ kb →
    (f.hasPrepare = true → env.prepareOk i = true) →
    (f.hasDone = true → env.doneOk i = true) →
    s ≤ addr → addr + len ≤ s + L →
    (∀ j fj, t.flash.get? j = some fj → j ≠ i → fj.ready = false ∧
      ∀ a, s ≤ a → a < s + L → ¬(fj.start ≤ a ∧ a < fj.start + fj.length)) →
    eraseEvents (erase_loop env t addr len ret).2.2 =
      (List.range ((addr + len - 1) / 2 ^ kb + 1 - addr / 2 ^ kb)).map
        (fun b => Event.eraseCall i ((addr / 2 ^ kb + b) * 2 ^ kb) (2 ^ kb)) ∧
    ((erase_loop env t addr len ret).1 = true ↔
      (ret = true ∧ ∀ b, b < (addr + len - 1) / 2 ^ kb + 1 - addr / 2 ^ kb →
        env.eraseOk i ((addr / 2 ^ kb + b) * 2 ^ kb) (2 ^ kb) = true)) := by
  intro len
  induction len using Nat.strong_induction_on with
  | _ len ih =>
    intro hlen t addr ret f hget hs hl hbs hprep hdone haddr hend hother
    have hbsp : 0 < 2 ^ kb := Nat.pos_pow_of_pos kb (by omega)
    have haddr32 : addr < 2 ^ 32 := by omega
    have halign := alignDown_pow2 addr kb hkb haddr32
    have hcomm : addr / 2 ^ kb * 2 ^ kb = 2 ^ kb * (addr / 2 ^ kb) :=
      Nat.mul_comm _ _
    have hdam := Nat.div_add_mod addr (2 ^ kb)
    have hmlt := Nat.mod_lt addr hbsp
    have hA1 : addr / 2 ^ kb * 2 ^ kb ≤ addr := Nat.div_mul_le_self _ _
    have hA2 : addr < addr / 2 ^ kb * 2 ^ kb + 2 ^ kb := by omega
    have hilen : i < t.flash.length := by
      by_contra hc
      rw [List.get?_eq_none.mpr (by omega)] at hget
      cases hget
    have hfa : target_flash_for_addr t addr = some i := by
      have h0 := flash_for_addr_aux_spec addr t.flash 0 i f hget
        (by omega) (by omega)
        (fun j fj hj hfj => (hother j fj hfj (by omega)).2 addr haddr (by omega))
      simpa using h0
    have hlen0 : ¬(len = 0) := by omega
    have hgetDf : t.flash.getD i default = f := by
      rw [List.getD_eq_get?, hget]
      rfl
    have hoget : (doneOthers env t.flash 0 i).2.1.get? i = some f := by
      rw [doneOthers_get, hget]
      simp
    have hogetD : (doneOthers env t.flash 0 i).2.1.getD i default = f := by
      rw [List.getD_eq_get?, hoget]
      rfl
    have holen : (doneOthers env t.flash 0 i).2.1.length = t.flash.length :=
      doneOthers_length env t.flash 0 i
    have hp1 : (flash_prepare env i f).1 = true :=
      flash_prepare_succeeds env i f hprep
    have horet : (doneOthers env t.flash 0 i).1 = true := by
      apply doneOthers_ret
      intro m fm hm hne
      exact (hother m fm hm (by omega)).1
    obtain ⟨hPbuf, hPbase, hPlow, hPhigh, hPstart, hPlen, hPbs, hPws, hPwbs,
      hPer, hPhp, hPhd⟩ := flash_prepare_preserves env i f
    have hsget : ((doneOthers env t.flash 0 i).2.1.set i
        (flash_prepare env i f).2.1).get? i = some (flash_prepare env i f).2.1 := by
      rw [List.get?_set_eq, hoget]
      rfl
    have hsgetD : ((doneOthers env t.flash 0 i).2.1.set i
        (flash_prepare env i f).2.1).getD i default = (flash_prepare env i f).2.1 := by
      rw [List.getD_eq_get?, hsget]
      rfl
    rw [erase_loop, if_neg hlen0]
    simp only [hfa]
    rw [hgetDf, hogetD, hbs, halign]
    simp only [hp1, if_true]
    rw [hsgetD]
    by_cases hz : len - (addr / 2 ^ kb * 2 ^ kb + 2 ^ kb - addr) ⊓ len = 0
    · rw [if_pos hz]
      have hd1 : (flash_done env i (flash_prepare env i f).2.1).1 = true := by
        apply flash_done_succeeds
        rw [hPhd]
        exact hdone
      have hn : (addr + len - 1) / 2 ^ kb + 1 - addr / 2 ^ kb = 1 := by
        have hle : len ≤ addr / 2 ^ kb * 2 ^ kb + 2 ^ kb - addr := by omega
        have hdiv : (addr + len - 1) / 2 ^ kb = addr / 2 ^ kb := by
          apply Nat.div_eq_of_lt_le
          · calc addr / 2 ^ kb * 2 ^ kb ≤ addr := hA1
              _ ≤ addr + len - 1 := by omega
          · calc addr + len - 1 < addr / 2 ^ kb * 2 ^ kb + 2 ^ kb := by omega
              _ = (addr / 2 ^ kb + 1) * 2 ^ kb := by ring
        omega
      rw [hn]
      constructor
      · simp only [eraseEvents_append, eraseEvents_doneOthers,
          eraseEvents_flash_prepare, eraseEvents_flash_done]
        rw [show List.range 1 = [0] from rfl]
        simp [eraseEvents, isErase]
      · constructor
        · intro hh
          have hh' : ((ret = true ∧ (doneOthers env t.flash 0 i).1 = true) ∧
              env.eraseOk i (addr / 2 ^ kb * 2 ^ kb) (2 ^ kb) = true) ∧
              (flash_done env i (flash_prepare env i f).2.1).1 = true := by
            simpa using hh
          refine ⟨hh'.1.1.1, ?_⟩
          intro b hb
          have hb0 : b = 0 := by omega
          subst hb0
          simpa using hh'.1.2
        · intro hh
          have h0 := hh.2 0 (by omega)
          simp only [Nat.add_zero] at h0
          simp [hh.1, h0, horet, hd1]
    · rw [if_neg hz]
      have hXle : addr / 2 ^ kb * 2 ^ kb + 2 ^ kb - addr < len := by
        rcases Nat.lt_or_ge (addr / 2 ^ kb * 2 ^ kb + 2 ^ kb - addr) len with h | h
        · exact h
        · exfalso
          apply hz
          have : (addr / 2 ^ kb * 2 ^ kb + 2 ^ kb - addr) ⊓ len = len :=
            Nat.min_eq_right h |>.symm ▸ (Nat.min_eq_right h)
          omega
      have hmin : (addr / 2 ^ kb * 2 ^ kb + 2 ^ kb - addr) ⊓ len =
          addr / 2 ^ kb * 2 ^ kb + 2 ^ kb - addr := Nat.min_eq_left (by omega)
      have hlt : len - (addr / 2 ^ kb * 2 ^ kb + 2 ^ kb - addr) ⊓ len < len := by
        omega
      rw [dif_pos hlt]
      -- set up the recursive call
      have hnext := ih (len - (addr / 2 ^ kb * 2 ^ kb + 2 ^ kb - addr) ⊓ len) hlt
        (by omega)
        (Target.mk ((doneOthers env t.flash 0 i).2.1.set i
            (flash_prepare env i f).2.1) t.flash_mode t.hasEnterHook t.hasExitHook)
        (addr / 2 ^ kb * 2 ^ kb + 2 ^ kb)
        (ret && (doneOthers env t.flash 0 i).1 &&
          env.eraseOk i (addr / 2 ^ kb * 2 ^ kb) (2 ^ kb))
        (flash_prepare env i f).2.1
        hsget
        (by rw [hPstart]; exact hs)
        (by rw [hPlen]; exact hl)
        (by rw [hPbs]; exact hbs)
        (by rw [hPhp]; exact hprep)
        (by rw [hPhd]; exact hdone)
        (by omega)
        (by omega)
        ?hother2
      case hother2 =>
        intro j fj hj hji
        rw [List.get?_set_ne _ _ (fun hh => hji hh.symm)] at hj
        rw [doneOthers_get] at hj
        cases hgj : t.flash.get? j with
        | none => rw [hgj] at hj; cases hj
        | some g =>
          rw [hgj] at hj
          have hne : ¬(0 + j = i) := by omega
          rw [show Option.map (fun g => if 0 + j = i then g
              else (flash_done env (0 + j) g).2.1) (some g) =
              some (if 0 + j = i then g else (flash_done env (0 + j) g).2.1)
            from rfl, if_neg hne] at hj
          have hj2 : (flash_done env (0 + j) g).2.1 = fj := Option.some.inj hj
          have hg := hother j g hgj hji
          have hdp := flash_done_preserves env (0 + j) g
          constructor
          · rw [← hj2]
            exact flash_done_ready_false env (0 + j) g
          · intro a ha1 ha2
            rw [← hj2, hdp.1, hdp.2.1]
            exact hg.2 a ha1 ha2
      -- arithmetic connecting the first block to the rest
      have haddr' : (addr / 2 ^ kb * 2 ^ kb + 2 ^ kb) / 2 ^ kb = addr / 2 ^ kb + 1 := by
        have : addr / 2 ^ kb * 2 ^ kb + 2 ^ kb = (addr / 2 ^ kb + 1) * 2 ^ kb := by ring
        rw [this, Nat.mul_div_cancel _ hbsp]
      have hsum : addr / 2 ^ kb * 2 ^ kb + 2 ^ kb +
          (len - (addr / 2 ^ kb * 2 ^ kb + 2 ^ kb - addr) ⊓ len) = addr + len := by
        omega
      have hnn : (addr + len - 1) / 2 ^ kb + 1 - addr / 2 ^ kb =
          ((addr + len - 1) / 2 ^ kb + 1 - (addr / 2 ^ kb + 1)) + 1 := by
        have hmono : addr / 2 ^ kb ≤ (addr + len - 1) / 2 ^ kb :=
          Nat.div_le_div_right (by omega)
        omega
      rcases hnext with ⟨hev, hret⟩
      constructor
      · simp only [eraseEvents_append, eraseEvents_doneOthers,
          eraseEvents_flash_prepare]
        rw [show eraseEvents [Event.eraseCall i (addr / 2 ^ kb * 2 ^ kb) (2 ^ kb)] =
          [Event.eraseCall i (addr / 2 ^ kb * 2 ^ kb) (2 ^ kb)] by
            simp [eraseEvents, isErase]]
        rw [hev, hsum, haddr', hnn, List.range_succ_eq_map]
        simp only [List.nil_append, List.map_cons, List.map_map]
        rw [List.singleton_append]
        refine List.cons_eq_cons.mpr ⟨by simp, ?_⟩
        apply List.map_congr_left
        intro b hb
        simp only [Function.comp_apply]
        congr 2
        omega
      · rw [hret, hsum, haddr', hnn]
        rw [horet]
        constructor
        · rintro ⟨hh, hrest⟩
          simp only [Bool.and_eq_true] at hh
          refine ⟨hh.1.1, ?_⟩
          intro b hb
          cases b with
          | zero => simpa using hh.2
          | succ b =>
            have := hrest b (by omega)
            rw [show addr / 2 ^ kb + 1 + b = addr / 2 ^ kb + (b + 1) by omega] at this
            exact this
        · rintro ⟨hh, hall⟩
          have h0 := hall 0 (by omega)
          simp only [Nat.add_zero] at h0
          refine ⟨by simp [hh, h0], ?_⟩
          intro b hb
          have := hall (b + 1) (by omega)
          rw [show addr / 2 ^ kb + (b + 1) = addr / 2 ^ kb + 1 + b by omega] at this
          exact this

theorem enter_preserves_flash (env : Env) (t : Target) :
    (target_enter_flash_mode env t).2.1.flash = t.flash := by
  by_cases hm : t.flash_mode = true <;> by_cases hh : t.hasEnterHook = true <;>
    by_cases he : env.enterOk = true <;> simp [target_enter_flash_mode, hm, hh, he]

theorem eraseEvents_enter (env : Env) (t : Target) :
    eraseEvents (target_enter_flash_mode env t).2.2 = [] := by
  by_cases hm : t.flash_mode = true <;> by_cases hh : t.hasEnterHook = true <;>
    by_cases he : env.enterOk = true <;>
    simp [target_enter_flash_mode, hm, hh, he, eraseEvents, isErase]

/-! ## Helper lemmas for the write path -/

theorem flush_noop (env : Env) (m : Nat) (g : FlashRegion) (h : g.buf = none) :
    flash_buffered_flush env m g = (true, g, []) := by
  simp [flash_buffered_flush, h]

theorem flash_done_buf_none (env : Env) (m : Nat) (g : FlashRegion)
    (h : g.ready = true) : (flash_done env m g).2.1.buf = none := by
  by_cases hd : g.hasDone = true <;> by_cases hb : g.buf.isSome = true <;>
    simp [flash_done, h, hd, hb] <;>
    exact Option.not_isSome_iff_eq_none.mp hb

theorem flash_done_emits (env : Env) (m : Nat) (g : FlashRegion)
    (h : g.ready = true) (hd : g.hasDone = true) :
    (flash_done env m g).2.2 = [Event.doneCall m] := by
  by_cases hb : g.buf.isSome = true <;> simp [flash_done, h, hd, hb]

theorem events_flash_prepare_shape (env : Env) (m : Nat) (g : FlashRegion) :
    ∀ e ∈ (flash_prepare env m g).2.2, e = Event.prepareCall m := by
  by_cases hr : g.ready = true <;> by_cases hp : g.hasPrepare = true <;>
    simp [flash_prepare, hr, hp]

theorem events_flash_done_shape (env : Env) (m : Nat) (g : FlashRegion) :
    ∀ e ∈ (flash_done env m g).2.2, e = Event.doneCall m := by
  by_cases hr : g.ready = true <;> by_cases hd : g.hasDone = true <;>
    by_cases hb : g.buf.isSome = true <;> simp [flash_done, hr, hd, hb]

theorem events_flushWriteLoop_shape (env : Env) (m ws : Nat) (B : Nat → Nat) :
    ∀ len srcOff addr, ∀ e ∈ (flushWriteLoop env m ws B srcOff addr len).2,
      ∃ x d, e = Event.writeCall m x d := by
  intro len
  induction len using Nat.strong_induction_on with
  | _ len ih =>
    intro srcOff addr e he
    rw [flushWriteLoop] at he
    by_cases hl : len = 0
    · simp [hl] at he
    · by_cases hw : ws = 0
      · simp [hl, hw] at he
      · simp only [hl, hw, if_false, List.mem_cons] at he
        rcases he with he | he
        · exact ⟨addr, _, he⟩
        · exact ih (len - min len ws) (by omega) (srcOff + ws) (addr + ws) e he

theorem events_flush_shape (env : Env) (m : Nat) (g : FlashRegion) :
    ∀ e ∈ (flash_buffered_flush env m g).2.2,
      e = Event.prepareCall m ∨ ∃ x d, e = Event.writeCall m x d := by
  intro e he
  unfold flash_buffered_flush at he
  cases hb : g.buf with
  | none => rw [hb] at he; simp at he
  | some B =>
    rw [hb] at he
    dsimp only at he
    by_cases hc : g.buf_addr_base ≠ UINT32_MAX ∧ g.buf_addr_low ≠ UINT32_MAX ∧
        g.buf_addr_low < g.buf_addr_high
    · rw [if_pos hc] at he
      by_cases hp : (flash_prepare env m g).1 = true
      · rw [if_pos hp] at he
        dsimp only at he
        simp only [List.mem_append] at he
        rcases he with he | he
        · exact Or.inl (events_flash_prepare_shape env m g e he)
        · exact Or.inr (events_flushWriteLoop_shape env m g.writesize B _ _ _ e he)
      · rw [if_neg hp] at he
        dsimp only at he
        exact Or.inl (events_flash_prepare_shape env m g e he)
    · rw [if_neg hc] at he
      simp at he

theorem events_bw_loop_shape (env : Env) (m : Nat) :
    ∀ len g dest src, ∀ e ∈ (bw_loop env m g dest src len).2.2,
      e = Event.prepareCall m ∨ ∃ x d, e = Event.writeCall m x d := by
  intro len
  induction len using Nat.strong_induction_on with
  | _ len ih =>
    intro g dest src e he
    rw [bw_loop] at he
    by_cases hl : len = 0
    · simp [hl] at he
    · rw [if_neg hl] at he
      dsimp only at he
      by_cases hc : alignDown dest g.writebufsize = g.buf_addr_base
      · rw [if_pos hc] at he
        dsimp only at he
        by_cases hd : len - copy_chunk g dest len < len
        · rw [dif_pos hd] at he
          dsimp only at he
          rw [List.nil_append] at he
          exact ih _ hd _ _ _ e he
        · rw [dif_neg hd] at he
          simp at he
      · rw [if_neg hc] at he
        dsimp only at he
        rw [dite_eq_ite] at he
        split at he
        · dsimp only at he
          simp only [List.mem_append] at he
          rcases he with he | he
          · exact events_flush_shape env m g e he
          · next hd => exact ih _ hd _ _ _ e he
        · dsimp only at he
          exact events_flush_shape env m g e he

theorem events_flash_buffered_write_shape (env : Env) (m : Nat)
    (g : FlashRegion) (dest : Nat) (src : List Nat) (len : Nat) :
    ∀ e ∈ (flash_buffered_write env m g dest src len).2.2,
      e = Event.prepareCall m ∨ ∃ x d, e = Event.writeCall m x d := by
  intro e he
  unfold flash_buffered_write at he
  cases hb : g.buf with
  | none =>
    rw [hb] at he
    by_cases hm : env.mallocOk = true
    · rw [if_pos hm] at he
      exact events_bw_loop_shape env m _ _ _ _ e he
    · rw [if_neg hm] at he
      simp at he
  | some B =>
    rw [hb] at he
    exact events_bw_loop_shape env m _ _ _ _ e he

theorem flushDoneOthers_length (env : Env) (regs : List FlashRegion)
    (j skip : Nat) : (flushDoneOthers env regs j skip).2.1.length = regs.length := by
  induction regs generalizing j with
  | nil => simp [flushDoneOthers]
  | cons f rest ih => by_cases hj : j = skip <;> simp [flushDoneOthers, hj, ih]

theorem flushDoneOthers_get (env : Env) (regs : List FlashRegion) (j skip : Nat) :
    ∀ m, (flushDoneOthers env regs j skip).2.1.get? m =
      (regs.get? m).map (fun g => if j + m = skip then g
        else (flash_done env (j + m) (flash_buffered_flush env (j + m) g).2.1).2.1) := by
  induction regs generalizing j with
  | nil => intro m; simp [flushDoneOthers]
  | cons f rest ih =>
    intro m
    cases m with
    | zero =>
      by_cases hj : j = skip <;> simp [flushDoneOthers, hj]
    | succ m =>
      have this1 := ih (j + 1) m
      have harith : j + 1 + m = j + (m + 1) := by omega
      rw [harith] at this1
      simp only [flushDoneOthers, List.get?_cons_succ]
      exact this1

theorem flushDoneOthers_no_writes (env : Env) :
    ∀ (regs : List FlashRegion) (j skip : Nat),
    (∀ m g, regs.get? m = some g → g.buf = none) →
    ∀ e ∈ (flushDoneOthers env regs j skip).2.2, isWrite e = false := by
  intro regs
  induction regs with
  | nil => intro j skip h e he; simp [flushDoneOthers] at he
  | cons f rest ih =>
    intro j skip h e he
    have hf : f.buf = none := h 0 f (by simp)
    have hrest : ∀ m g, rest.get? m = some g → g.buf = none :=
      fun m g hm => h (m + 1) g (by simpa using hm)
    by_cases hj : j = skip
    · subst hj
      simp only [flushDoneOthers, if_true, List.nil_append] at he
      exact ih (j + 1) _ hrest e he
    · simp only [flushDoneOthers, hj, if_false, List.mem_append] at he
      rcases he with (he | he) | he
      · rw [flush_noop env j f hf] at he
        simp at he
      · rw [flush_noop env j f hf] at he
        have := events_flash_done_shape env j f e he
        subst this
        rfl
      · exact ih (j + 1) skip hrest e he

theorem for_addr_sound (a : Nat) : ∀ (regs : List FlashRegion) (base m : Nat),
    flash_for_addr_aux regs base a = some m →
    ∃ idx g, base + idx = m ∧ regs.get? idx = some g ∧ g.start ≤ a ∧
      a < g.start + g.length := by
  intro regs
  induction regs with
  | nil => intro base m h; simp [flash_for_addr_aux] at h
  | cons f rest ih =>
    intro base m h
    unfold flash_for_addr_aux at h
    by_cases hc : f.start ≤ a ∧ a < f.start + f.length
    · rw [if_pos hc] at h
      exact ⟨0, f, by simpa using h, by simp, hc.1, hc.2⟩
    · rw [if_neg hc] at h
      obtain ⟨idx, g, hbm, hg, h1, h2⟩ := ih (base + 1) m h
      exact ⟨idx + 1, g, by omega, by simpa using hg, h1, h2⟩

theorem bw_loop_zero (env : Env) (m : Nat) (g : FlashRegion) (dest : Nat)
    (src : List Nat) : bw_loop env m g dest src 0 = (true, g, []) := by
  rw [bw_loop]
  simp

theorem flush_geom (env : Env) (m : Nat) (g : FlashRegion) :
    (flash_buffered_flush env m g).2.1.start = g.start ∧
    (flash_buffered_flush env m g).2.1.length = g.length ∧
    (flash_buffered_flush env m g).2.1.blocksize = g.blocksize ∧
    (flash_buffered_flush env m g).2.1.writesize = g.writesize ∧
    (flash_buffered_flush env m g).2.1.writebufsize = g.writebufsize ∧
    (flash_buffered_flush env m g).2.1.erased = g.erased ∧
    (flash_buffered_flush env m g).2.1.hasPrepare = g.hasPrepare ∧
    (flash_buffered_flush env m g).2.1.hasDone = g.hasDone ∧
    (flash_buffered_flush env m g).2.1.buf = g.buf := by
  obtain ⟨hPbuf, hPbase, hPlow, hPhigh, hPstart, hPlen, hPbs, hPws, hPwbs,
    hPer, hPhp, hPhd⟩ := flash_prepare_preserves env m g
  unfold flash_buffered_flush
  cases hb : g.buf with
  | none => simp [hb]
  | some B =>
    dsimp only
    by_cases hc : g.buf_addr_base ≠ UINT32_MAX ∧ g.buf_addr_low ≠ UINT32_MAX ∧
        g.buf_addr_low < g.buf_addr_high
    · rw [if_pos hc]
      by_cases hp : (flash_prepare env m g).1 = true
      · rw [if_pos hp]
        exact ⟨hPstart, hPlen, hPbs, hPws, hPwbs, hPer, hPhp, hPhd,
          hPbuf.trans hb⟩
      · rw [if_neg hp]
        exact ⟨hPstart, hPlen, hPbs, hPws, hPwbs, hPer, hPhp, hPhd,
          hPbuf.trans hb⟩
    · rw [if_neg hc]
      simp [hb]

theorem flush_ready_after (env : Env) (m : Nat) (g : FlashRegion) (B : Nat → Nat)
    (hb : g.buf = some B)
    (hbase : g.buf_addr_base ≠ UINT32_MAX) (hlow : g.buf_addr_low ≠ UINT32_MAX)
    (hlh : g.buf_addr_low < g.buf_addr_high)
    (hp : (flash_prepare env m g).1 = true) :
    (flash_buffered_flush env m g).2.1.ready = true := by
  unfold flash_buffered_flush
  rw [hb]
  dsimp only
  rw [if_pos ⟨hbase, hlow, hlh⟩, if_pos hp]
  exact flash_prepare_ready env m g hp

theorem flush_emits (env : Env) (m kv : Nat) (hkv : kv ≤ 32) (g : FlashRegion)
    (B : Nat → Nat) (hb : g.buf = some B) (hws : g.writesize = 2 ^ kv)
    (hbase : g.buf_addr_base ≠ UINT32_MAX) (hlow : g.buf_addr_low ≠ UINT32_MAX)
    (hlh : g.buf_addr_low < g.buf_addr_high) (hlow32 : g.buf_addr_low < 2 ^ 32)
    (hp : (flash_prepare env m g).1 = true) :
    ∃ x d, Event.writeCall m x d ∈ (flash_buffered_flush env m g).2.2 := by
  unfold flash_buffered_flush
  rw [hb]
  dsimp only
  rw [if_pos ⟨hbase, hlow, hlh⟩, if_pos hp]
  dsimp only
  have hal : alignDown g.buf_addr_low g.writesize ≤ g.buf_addr_low := by
    rw [hws]
    exact alignDown_le _ kv hkv hlow32
  have hlz : ¬(g.buf_addr_high - alignDown g.buf_addr_low g.writesize = 0) := by
    omega
  have hwz : ¬(g.writesize = 0) := by
    rw [hws]
    have := Nat.pos_pow_of_pos kv (show 0 < 2 by omega)
    omega
  rw [flushWriteLoop, if_neg hlz, if_neg hwz]
  dsimp only
  refine ⟨alignDown g.buf_addr_low g.writesize,
    (List.range g.writesize).map
      (fun k => B (alignDown g.buf_addr_low g.writesize - g.buf_addr_base + k)), ?_⟩
  apply List.mem_append_right
  exact List.mem_cons_self _ _

theorem bw_loop_geom (env : Env) (m : Nat) : ∀ (len : Nat) (g : FlashRegion)
    (dest : Nat) (src : List Nat),
    (bw_loop env m g dest src len).2.1.start = g.start ∧
    (bw_loop env m g dest src len).2.1.length = g.length ∧
    (bw_loop env m g dest src len).2.1.blocksize = g.blocksize ∧
    (bw_loop env m g dest src len).2.1.writesize = g.writesize ∧
    (bw_loop env m g dest src len).2.1.writebufsize = g.writebufsize ∧
    (bw_loop env m g dest src len).2.1.erased = g.erased ∧
    (bw_loop env m g dest src len).2.1.hasPrepare = g.hasPrepare ∧
    (bw_loop env m g dest src len).2.1.hasDone = g.hasDone := by
  intro len
  induction len using Nat.strong_induction_on with
  | _ len ih =>
    intro g dest src
    rw [bw_loop]
    by_cases hl : len = 0
    · simp [hl]
    · rw [if_neg hl]
      dsimp only
      by_cases hc : alignDown dest g.writebufsize = g.buf_addr_base
      · rw [if_pos hc]
        dsimp only
        rw [dite_eq_ite]
        split
        · next hd => exact ih _ hd _ _ _
        · exact ⟨rfl, rfl, rfl, rfl, rfl, rfl, rfl, rfl⟩
      · rw [if_neg hc]
        dsimp only
        have hg := flush_geom env m g
        rw [dite_eq_ite]
        split
        · next hd =>
            exact ⟨(ih _ hd _ _ _).1.trans hg.1, (ih _ hd _ _ _).2.1.trans hg.2.1,
              (ih _ hd _ _ _).2.2.1.trans hg.2.2.1,
              (ih _ hd _ _ _).2.2.2.1.trans hg.2.2.2.1,
              (ih _ hd _ _ _).2.2.2.2.1.trans hg.2.2.2.2.1,
              (ih _ hd _ _ _).2.2.2.2.2.1.trans hg.2.2.2.2.2.1,
              (ih _ hd _ _ _).2.2.2.2.2.2.1.trans hg.2.2.2.2.2.2.1,
              (ih _ hd _ _ _).2.2.2.2.2.2.2.trans hg.2.2.2.2.2.2.2.1⟩
        · exact ⟨hg.1, hg.2.1, hg.2.2.1, hg.2.2.2.1, hg.2.2.2.2.1,
            hg.2.2.2.2.2.1, hg.2.2.2.2.2.2.1, hg.2.2.2.2.2.2.2.1⟩

theorem bw_loop_pending (env : Env) (m kw : Nat) (hkw : kw ≤ 32) :
    ∀ (len : Nat) (g : FlashRegion) (dest : Nat) (src : List Nat),
    0 < len → g.writebufsize = 2 ^ kw → g.buf.isSome = true →
    dest + len < 2 ^ 32 →
    (bw_loop env m g dest src len).2.1.buf.isSome = true ∧
    (bw_loop env m g dest src len).2.1.buf_addr_base ≠ UINT32_MAX ∧
    (bw_loop env m g dest src len).2.1.buf_addr_low ≠ UINT32_MAX ∧
    (bw_loop env m g dest src len).2.1.buf_addr_low <
      (bw_loop env m g dest src len).2.1.buf_addr_high ∧
    (bw_loop env m g dest src len).2.1.buf_addr_low < 2 ^ 32 := by
  intro len
  induction len using Nat.strong_induction_on with
  | _ len ih =>
    intro g dest src hlen hwbs hbuf hd32
    have hwbsp : 0 < (2 : Nat) ^ kw := Nat.pos_pow_of_pos kw (by omega)
    have hdest32 : dest < 2 ^ 32 := by omega
    have hM : UINT32_MAX = 2 ^ 32 - 1 := rfl
    have halmax : alignDown dest (2 ^ kw) ≠ UINT32_MAX := by
      have := alignDown_le dest kw hkw hdest32
      rw [hM]
      omega
    rw [bw_loop, if_neg (by omega : ¬(len = 0))]
    dsimp only
    by_cases hc : alignDown dest g.writebufsize = g.buf_addr_base
    · rw [if_pos hc]
      dsimp only
      have hchunk : 0 < copy_chunk g dest len := by
        unfold copy_chunk copy_off
        rw [hwbs]
        have := Nat.mod_lt dest hwbsp
        omega
      have hckle : copy_chunk g dest len ≤ len := Nat.min_le_right _ _
      have hd : len - copy_chunk g dest len < len := by omega
      rw [dif_pos hd]
      dsimp only
      by_cases hz : len - copy_chunk g dest len = 0
      · rw [hz, bw_loop_zero]
        dsimp only
        refine ⟨by simp [hbuf], ?_, ?_, ?_, ?_⟩
        · rw [← hc, hwbs]
          exact halmax
        · have h1 : min g.buf_addr_low dest ≤ dest := Nat.min_le_right _ _
          rw [hM]
          omega
        · have h1 : min g.buf_addr_low dest ≤ dest := Nat.min_le_right _ _
          have h2 : dest + copy_chunk g dest len ≤
              max g.buf_addr_high (dest + copy_chunk g dest len) := Nat.le_max_right _ _
          omega
        · have h1 : min g.buf_addr_low dest ≤ dest := Nat.min_le_right _ _
          omega
      · apply ih _ hd
        · omega
        · exact hwbs
        · simp [hbuf]
        · omega
    · rw [if_neg hc]
      dsimp only
      have hfg := flush_geom env m g
      rcases Option.isSome_iff_exists.mp hbuf with ⟨B0, hB0⟩
      set Q := (flash_buffered_flush env m g).2.1 with hQ
      have hfbuf : Q.buf = some B0 := by
        rw [hQ, hfg.2.2.2.2.2.2.2.2, hB0]
      have hfwbs : Q.writebufsize = 2 ^ kw := by
        rw [hQ]
        exact hfg.2.2.2.2.1.trans hwbs
      have hchunk : 0 < copy_chunk { Q with
          buf_addr_base := alignDown dest g.writebufsize,
          buf := Option.map (fun _ => (fun _ => Q.erased)) Q.buf } dest len := by
        unfold copy_chunk copy_off
        dsimp only
        rw [hfwbs]
        have := Nat.mod_lt dest hwbsp
        omega
      have hckle : copy_chunk { Q with
          buf_addr_base := alignDown dest g.writebufsize,
          buf := Option.map (fun _ => (fun _ => Q.erased)) Q.buf } dest len ≤ len :=
        Nat.min_le_right _ _
      have hd : len - copy_chunk { Q with
          buf_addr_base := alignDown dest g.writebufsize,
          buf := Option.map (fun _ => (fun _ => Q.erased)) Q.buf } dest len < len := by
        omega
      rw [dif_pos hd]
      dsimp only
      by_cases hz : len - copy_chunk { Q with
          buf_addr_base := alignDown dest g.writebufsize,
          buf := Option.map (fun _ => (fun _ => Q.erased)) Q.buf } dest len = 0
      · rw [hz, bw_loop_zero]
        dsimp only
        refine ⟨by simp [hfbuf], ?_, ?_, ?_, ?_⟩
        · rw [hwbs]
          exact halmax
        · have h1 : min Q.buf_addr_low dest ≤ dest := Nat.min_le_right _ _
          rw [hM]
          omega
        · have h1 : min Q.buf_addr_low dest ≤ dest := Nat.min_le_right _ _
          have h2 : dest + copy_chunk { Q with
              buf_addr_base := alignDown dest g.writebufsize,
              buf := Option.map (fun _ => (fun _ => Q.erased)) Q.buf } dest len ≤
              max Q.buf_addr_high (dest + copy_chunk { Q with
                buf_addr_base := alignDown dest g.writebufsize,
                buf := Option.map (fun _ => (fun _ => Q.erased)) Q.buf } dest len) :=
            Nat.le_max_right _ _
          omega
        · have h1 : min Q.buf_addr_low dest ≤ dest := Nat.min_le_right _ _
          omega
      · apply ih _ hd
        · omega
        · exact hfwbs
        · simp [hfbuf]
        · omega

theorem fbw_geom (env : Env) (m : Nat) (g : FlashRegion) (dest : Nat)
    (src : List Nat) (len : Nat) :
    (flash_buffered_write env m g dest src len).2.1.start = g.start ∧
    (flash_buffered_write env m g dest src len).2.1.length = g.length ∧
    (flash_buffered_write env m g dest src len).2.1.blocksize = g.blocksize ∧
    (flash_buffered_write env m g dest src len).2.1.writesize = g.writesize ∧
    (flash_buffered_write env m g dest src len).2.1.writebufsize = g.writebufsize ∧
    (flash_buffered_write env m g dest src len).2.1.erased = g.erased ∧
    (flash_buffered_write env m g dest src len).2.1.hasPrepare = g.hasPrepare ∧
    (flash_buffered_write env m g dest src len).2.1.hasDone = g.hasDone := by
  unfold flash_buffered_write
  cases hb : g.buf with
  | some B =>
    exact bw_loop_geom env m len g dest src
  | none =>
    by_cases hm : env.mallocOk = true
    · rw [if_pos hm]
      exact bw_loop_geom env m len _ dest src
    · rw [if_neg hm]
      exact ⟨rfl, rfl, rfl, rfl, rfl, rfl, rfl, rfl⟩

theorem fbw_pending (env : Env) (m kw : Nat) (hkw : kw ≤ 32) (g : FlashRegion)
    (dest : Nat) (src : List Nat) (len : Nat) (hlen : 0 < len)
    (hwbs : g.writebufsize = 2 ^ kw) (hnone : g.buf = none)
    (hmal : env.mallocOk = true) (hd32 : dest + len < 2 ^ 32) :
    (flash_buffered_write env m g dest src len).2.1.buf.isSome = true ∧
    (flash_buffered_write env m g dest src len).2.1.buf_addr_base ≠ UINT32_MAX ∧
    (flash_buffered_write env m g dest src len).2.1.buf_addr_low ≠ UINT32_MAX ∧
    (flash_buffered_write env m g dest src len).2.1.buf_addr_low <
      (flash_buffered_write env m g dest src len).2.1.buf_addr_high ∧
    (flash_buffered_write env m g dest src len).2.1.buf_addr_low < 2 ^ 32 := by
  unfold flash_buffered_write
  rw [hnone]
  dsimp only
  rw [if_pos hmal]
  exact bw_loop_pending env m kw hkw len _ dest src hlen hwbs (by simp) hd32

theorem flushDoneOthers_no_write_i (env : Env) (i : Nat) :
    ∀ (regs : List FlashRegion) (j skip : Nat),
    (∀ m g, regs.get? m = some g → j + m = i → g.buf = none) →
    ∀ e ∈ (flushDoneOthers env regs j skip).2.2, isWriteTo i e = false := by
  intro regs
  induction regs with
  | nil => intro j skip h e he; simp [flushDoneOthers] at he
  | cons f rest ih =>
    intro j skip h e he
    have hrest : ∀ m g, rest.get? m = some g → (j + 1) + m = i → g.buf = none :=
      fun m g hm hie => h (m + 1) g (by simpa using hm) (by omega)
    by_cases hj : j = skip
    · subst hj
      simp only [flushDoneOthers, if_true, List.nil_append] at he
      exact ih (j + 1) _ hrest e he
    · simp only [flushDoneOthers, hj, if_false, List.mem_append] at he
      rcases he with (he | he) | he
      · by_cases hji : j = i
        · subst hji
          rw [flush_noop env j f (h 0 f (by simp) (by omega))] at he
          simp at he
        · rcases events_flush_shape env j f e he with he1 | ⟨x, d, he1⟩
          · subst he1; rfl
          · subst he1
            simp [isWriteTo, hji]
      · have he1 := events_flash_done_shape env j _ e he
        subst he1
        rfl
      · exact ih (j + 1) skip hrest e he

theorem write_loop_no_writes_to (env : Env) (i : Nat) :
    ∀ (len : Nat) (t : Target) (dest : Nat) (src : List Nat) (ret : Bool),
    (∀ g, t.flash.get? i = some g → g.start + g.length ≤ dest ∧ g.buf = none) →
    ∀ e ∈ (write_loop env t dest src len ret).2.2, isWriteTo i e = false := by
  intro len
  induction len using Nat.strong_induction_on with
  | _ len ih =>
    intro t dest src ret hreg e he
    rw [write_loop] at he
    by_cases hl : len = 0
    · simp [hl] at he
    · rw [if_neg hl] at he
      cases hfa : target_flash_for_addr t dest with
      | none => rw [hfa] at he; simp at he
      | some m =>
        rw [hfa] at he
        dsimp only at he
        -- the resolved region is not region i
        obtain ⟨idx, gm, hidx, hgm, hgm1, hgm2⟩ := for_addr_sound dest t.flash 0 m hfa
        have hgm2m : t.flash.get? m = some gm := by
          have hxm : idx = m := by omega
          rw [← hxm]
          exact hgm
        have hmi : m ≠ i := by
          intro hh
          obtain ⟨hb1, _⟩ := hreg gm (by rw [← hh]; exact hgm2m)
          omega
        have hinone : ∀ m1 g1, t.flash.get? m1 = some g1 → 0 + m1 = i →
            g1.buf = none := by
          intro m1 g1 hg1 hm1
          have : m1 = i := by omega
          subst this
          exact (hreg g1 hg1).2
        have hfD : (flushDoneOthers env t.flash 0 m).2.1.getD m default = gm := by
          rw [List.getD_eq_get?, flushDoneOthers_get, hgm2m]
          simp
        rw [hfD] at he
        -- region i is left intact (still past-the-end and buffer-free) by the iteration
        have hpres : ∀ w1 g, ((flushDoneOthers env t.flash 0 m).2.1.set m w1).get? i =
            some g → g.start + g.length ≤ dest ∧ g.buf = none := by
          intro w1 g hg
          rw [List.get?_set_ne _ _ (fun hh => hmi hh)] at hg
          rw [flushDoneOthers_get] at hg
          cases hgi : t.flash.get? i with
          | none => rw [hgi] at hg; cases hg
          | some gi =>
            rw [hgi] at hg
            obtain ⟨hb1, hb2⟩ := hreg gi hgi
            have hne : ¬(0 + i = m) := by omega
            rw [show Option.map (fun g0 => if 0 + i = m then g0
                else (flash_done env (0 + i) (flash_buffered_flush env (0 + i) g0).2.1).2.1)
                (some gi) = some (if 0 + i = m then gi
                else (flash_done env (0 + i) (flash_buffered_flush env (0 + i) gi).2.1).2.1)
              from rfl, if_neg hne] at hg
            rw [flush_noop env (0 + i) gi hb2] at hg
            have hg2 := Option.some.inj hg
            have hdp := flash_done_preserves env (0 + i) gi
            constructor
            · rw [← hg2, hdp.1, hdp.2.1]
              exact hb1
            · rw [← hg2]
              by_cases hr : gi.ready = true
              · exact flash_done_buf_none env (0 + i) gi hr
              · rw [flash_done_on_not_ready env (0 + i) gi (by simpa using hr)]
                exact hb2
        have hpres2 : ∀ w1 d1 g, (((flushDoneOthers env t.flash 0 m).2.1.set m w1).set m
            d1).get? i = some g → g.start + g.length ≤ dest ∧ g.buf = none := by
          intro w1 d1 g hg
          rw [List.get?_set_ne _ _ (fun hh => hmi hh)] at hg
          exact hpres w1 g hg
        have hdle : dest ≤ min (dest + len) (gm.start + gm.length) := by omega
        -- dispatch the membership
        have hOther : ∀ e1 ∈ (flushDoneOthers env t.flash 0 m).2.2,
            isWriteTo i e1 = false :=
          flushDoneOthers_no_write_i env i t.flash 0 m hinone
        have hW : ∀ e1 ∈ (flash_buffered_write env m gm dest
            (src.take (min (dest + len) (gm.start + gm.length) - dest))
            (min (dest + len) (gm.start + gm.length) - dest)).2.2,
            isWriteTo i e1 = false := by
          intro e1 he1
          rcases events_flash_buffered_write_shape env m _ _ _ _ e1 he1 with h1 | ⟨x, d, h1⟩
          · subst h1; rfl
          · subst h1
            simp [isWriteTo]
            omega
        have hEfl : ∀ g1 e1, e1 ∈ (flash_buffered_flush env m g1).2.2 →
            isWriteTo i e1 = false := by
          intro g1 e1 he1
          rcases events_flush_shape env m g1 e1 he1 with h1 | ⟨x, d, h1⟩
          · subst h1; rfl
          · subst h1
            simp [isWriteTo]
            omega
        have hEd : ∀ g1 e1, e1 ∈ (flash_done env m g1).2.2 →
            isWriteTo i e1 = false := by
          intro g1 e1 he1
          have h1 := events_flash_done_shape env m g1 e1 he1
          subst h1
          rfl
        rw [dite_eq_ite] at he
        split at he
        · next hlt =>
          split at he
          · dsimp only at he
            simp only [List.mem_append] at he
            rcases he with ((ho | hw) | hee | hed) | hr
            · exact hOther e ho
            · exact hW e hw
            · exact hEfl _ e hee
            · exact hEd _ e hed
            · refine ih _ hlt _ _ _ _ ?_ e hr
              intro g hg
              have h5 := hpres2 _ _ g hg
              exact ⟨by omega, h5.2⟩
          · dsimp only at he
            simp only [List.mem_append, List.not_mem_nil, or_false] at he
            rcases he with (ho | hw) | hr
            · exact hOther e ho
            · exact hW e hw
            · refine ih _ hlt _ _ _ _ ?_ e hr
              intro g hg
              have h5 := hpres _ g hg
              exact ⟨by omega, h5.2⟩
        · split at he
          · dsimp only at he
            simp only [List.mem_append] at he
            rcases he with (ho | hw) | hee | hed
            · exact hOther e ho
            · exact hW e hw
            · exact hEfl _ e hee
            · exact hEd _ e hed
          · dsimp only at he
            simp only [List.mem_append, List.not_mem_nil, or_false] at he
            rcases he with ho | hw
            · exact hOther e ho
            · exact hW e hw

/-! ## Claim C2 -/

/-- C2: for an erase request `(addr, len)`, `len > 0`, lying inside the region
with index `i` (power-of-two blocksize `2 ^ kb`, disjoint sibling regions,
successful mode/prepare/done transitions), `target_flash_erase` invokes the
region's erase primitive exactly once per block of the minimal set of
`blocksize`-aligned blocks covering `[addr, addr + len)` — in ascending order,
each call at the block's aligned start address with length `blocksize` — and
makes no other erase call. -/
theorem C2_erase_minimal_block_cover (env : Env) (t : Target)
    (addr len i kb : Nat) (f : FlashRegion)
    (henter : (target_enter_flash_mode env t).1 = true)
    (hget : t.flash.get? i = some f)
    (hkb : kb ≤ 32) (hbs : f.blocksize = 2 ^ kb)
    (hbound : f.start + f.length ≤ 2 ^ 32)
    (hlen : 0 < len) (hlo : f.start ≤ addr)
    (hhi : addr + len ≤ f.start + f.length)
    (hprep : f.hasPrepare = true → env.prepareOk i = true)
    (hdone : f.hasDone = true → env.doneOk i = true)
    (hother : ∀ j fj, t.flash.get? j = some fj → j ≠ i → fj.ready = false ∧
      ∀ a, f.start ≤ a → a < f.start + f.length →
        ¬(fj.start ≤ a ∧ a < fj.start + fj.length)) :
    eraseEvents (target_flash_erase env t addr len).2.2 =
      (List.range ((addr + len - 1) / 2 ^ kb + 1 - addr / 2 ^ kb)).map
        (fun b => Event.eraseCall i ((addr / 2 ^ kb + b) * 2 ^ kb) (2 ^ kb)) := by
  have hflash : (target_enter_flash_mode env t).2.1.flash = t.flash :=
    enter_preserves_flash env t
  have hspec := erase_loop_spec env i f.start f.length kb hkb hbound len hlen
    (target_enter_flash_mode env t).2.1 addr true f
    (by rw [hflash]; exact hget) rfl rfl hbs hprep hdone hlo hhi
    (by rw [hflash]; exact hother)
  unfold target_flash_erase
  simp only [henter, if_true]
  rw [eraseEvents_append, eraseEvents_enter, List.nil_append]
  exact hspec.1

theorem C2_witness :
    (target_enter_flash_mode envOk sampleTarget).1 = true ∧
    sampleTarget.flash.get? 0 = some sampleRegion ∧
    sampleRegion.blocksize = 2 ^ 10 ∧
    eraseEvents (target_flash_erase envOk sampleTarget 0x08000010 0x10).2.2 =
      [Event.eraseCall 0 0x08000000 0x400] := by
  refine ⟨by decide, rfl, by decide, ?_⟩
  have h := C2_erase_minimal_block_cover envOk sampleTarget 0x08000010 0x10 0 10
    sampleRegion (by decide) rfl (by decide) (by decide) (by decide) (by decide)
    (by decide) (by decide) (by decide) (by decide)
    (by
      intro j fj hj hne
      cases j with
      | zero => exact absurd rfl hne
      | succ n => simp [sampleTarget] at hj)
  rw [h]
  rfl

/-! ## Claim C8 -/

/-- C8: in `target_flash_erase`, a failing block erase does not stop the loop:
under the same conditions as the block-cover claim, the erase primitive is still
invoked on every block of the requested range whatever the individual results,
and the function returns true exactly when every attempted block erase
succeeded — i.e. the logical AND of all attempted results, with no
short-circuit. -/
theorem C8_erase_aggregates_failures (env : Env) (t : Target)
    (addr len i kb : Nat) (f : FlashRegion)
    (henter : (target_enter_flash_mode env t).1 = true)
    (hget : t.flash.get? i = some f)
    (hkb : kb ≤ 32) (hbs : f.blocksize = 2 ^ kb)
    (hbound : f.start + f.length ≤ 2 ^ 32)
    (hlen : 0 < len) (hlo : f.start ≤ addr)
    (hhi : addr + len ≤ f.start + f.length)
    (hprep : f.hasPrepare = true → env.prepareOk i = true)
    (hdone : f.hasDone = true → env.doneOk i = true)
    (hother : ∀ j fj, t.flash.get? j = some fj → j ≠ i → fj.ready = false ∧
      ∀ a, f.start ≤ a → a < f.start + f.length →
        ¬(fj.start ≤ a ∧ a < fj.start + fj.length)) :
    eraseEvents (target_flash_erase env t addr len).2.2 =
      (List.range ((addr + len - 1) / 2 ^ kb + 1 - addr / 2 ^ kb)).map
        (fun b => Event.eraseCall i ((addr / 2 ^ kb + b) * 2 ^ kb) (2 ^ kb)) ∧
    ((target_flash_erase env t addr len).1 = true ↔
      ∀ b, b < (addr + len - 1) / 2 ^ kb + 1 - addr / 2 ^ kb →
        env.eraseOk i ((addr / 2 ^ kb + b) * 2 ^ kb) (2 ^ kb) = true) := by
  have hflash : (target_enter_flash_mode env t).2.1.flash = t.flash :=
    enter_preserves_flash env t
  have hspec := erase_loop_spec env i f.start f.length kb hkb hbound len hlen
    (target_enter_flash_mode env t).2.1 addr true f
    (by rw [hflash]; exact hget) rfl rfl hbs hprep hdone hlo hhi
    (by rw [hflash]; exact hother)
  constructor
  · unfold target_flash_erase
    simp only [henter, if_true]
    rw [eraseEvents_append, eraseEvents_enter, List.nil_append]
    exact hspec.1
  · unfold target_flash_erase
    simp only [henter, if_true]
    rw [hspec.2]
    simp

theorem C8_witness :
    envEraseMidFail.eraseOk 0 16 16 = false ∧
    eraseEvents (target_flash_erase envEraseMidFail tinyTarget 0 48).2.2 =
      [Event.eraseCall 0 0 16, Event.eraseCall 0 16 16, Event.eraseCall 0 32 16] ∧
    (target_flash_erase envEraseMidFail tinyTarget 0 48).1 = false := by
  have h := C8_erase_aggregates_failures envEraseMidFail tinyTarget 0 48 0 4
    tinyRegion (by decide) rfl (by decide) (by decide) (by decide) (by decide)
    (by decide) (by decide) (by decide) (by decide)
    (by
      intro j fj hj hne
      cases j with
      | zero => exact absurd rfl hne
      | succ n => simp [tinyTarget] at hj)
  refine ⟨by decide, ?_, ?_⟩
  · rw [h.1]
    rfl
  · have h2 := h.2
    by_cases hr : (target_flash_erase envEraseMidFail tinyTarget 0 48).1 = true
    · exfalso
      have := (h2.mp hr) 1 (by decide)
      simp [envEraseMidFail] at this
    · simp only [Bool.not_eq_true] at hr
      exact hr

theorem isWriteTo_of_not_isWrite (j : Nat) (e : Event)
    (h : isWrite e = false) : isWriteTo j e = false := by
  cases e
  case writeCall r a d => simp [isWrite] at h
  all_goals rfl

theorem append_order_split (L R2 : List Event) (i j : Nat)
    (hA : ∀ e ∈ L, isWriteTo j e = false)
    (hR : ∀ e ∈ R2, isWriteTo i e = false) :
    ∀ p q pa pd qa qd, (L ++ R2).get? p = some (Event.writeCall i pa pd) →
      (L ++ R2).get? q = some (Event.writeCall j qa qd) → p < q := by
  intro p q pa pd qa qd hp hq
  have hpL : p < L.length := by
    by_contra hc
    rw [List.get?_append_right (by omega)] at hp
    have h1 := hR _ (List.get?_mem hp)
    simp [isWriteTo] at h1
  have hqL : L.length ≤ q := by
    by_contra hc
    rw [List.get?_append (by omega)] at hq
    have h1 := hA _ (List.get?_mem hq)
    simp [isWriteTo] at h1
  omega

theorem done_before_writes (P R2 : List Event) (i j : Nat)
    (hP : ∀ e ∈ P, isWriteTo j e = false) :
    (P ++ (Event.doneCall i :: R2)).get? P.length = some (Event.doneCall i) ∧
    ∀ q qa qd, (P ++ (Event.doneCall i :: R2)).get? q =
      some (Event.writeCall j qa qd) → P.length < q := by
  constructor
  · rw [List.get?_append_right (le_refl _)]
    simp
  · intro q qa qd hq
    by_contra hc
    rcases Nat.lt_or_ge q P.length with h1 | h1
    · rw [List.get?_append h1] at hq
      have h2 := hP _ (List.get?_mem hq)
      simp [isWriteTo] at h2
    · have hqe : q = P.length := by omega
      subst hqe
      rw [List.get?_append_right (le_refl _)] at hq
      simp at hq

/-! ## Claim C3 -/

/-- C3: a `target_flash_write` whose destination range spans past the end of
the region with index `i` (into any different region `j`) flushes region `i`'s
buffer and retires the region before any byte is written to region `j`: the
trace contains a `write` call to region `i`, every `write` call to region `i`
precedes every `write` call to region `j`, and (when region `i` has a `done`
hook) a `doneCall i` also precedes every `write` call to region `j`. -/
theorem C3_flush_previous_region_first (env : Env) (t : Target)
    (dest : Nat) (src : List Nat) (len : Nat) (i j kw kv : Nat) (fi : FlashRegion)
    (hm : t.flash_mode = true)
    (hmal : env.mallocOk = true)
    (hget : t.flash.get? i = some fi)
    (hkw : kw ≤ 32) (hwbs : fi.writebufsize = 2 ^ kw)
    (hkv : kv ≤ 32) (hws : fi.writesize = 2 ^ kv)
    (hbound : fi.start + fi.length < 2 ^ 32)
    (hd1 : fi.start ≤ dest) (hd2 : dest < fi.start + fi.length)
    (hspan : fi.start + fi.length < dest + len)
    (hprep : fi.hasPrepare = true → env.prepareOk i = true)
    (hnone : ∀ m g, t.flash.get? m = some g → g.buf = none)
    (hdisj : ∀ m g, t.flash.get? m = some g → m ≠ i →
      ¬(g.start ≤ dest ∧ dest < g.start + g.length))
    (hij : j ≠ i) :
    (∃ p a d, ((target_flash_write env t dest src len).2.2).get? p =
      some (Event.writeCall i a d)) ∧
    (∀ p q pa pd qa qd,
      ((target_flash_write env t dest src len).2.2).get? p =
        some (Event.writeCall i pa pd) →
      ((target_flash_write env t dest src len).2.2).get? q =
        some (Event.writeCall j qa qd) → p < q) ∧
    (fi.hasDone = true →
      ∃ r, ((target_flash_write env t dest src len).2.2).get? r =
        some (Event.doneCall i) ∧
      ∀ q qa qd, ((target_flash_write env t dest src len).2.2).get? q =
        some (Event.writeCall j qa qd) → r < q) := by
  have henter : target_enter_flash_mode env t = (true, t, []) := by
    simp [target_enter_flash_mode, hm]
  have hlennz : ¬(len = 0) := by omega
  have hilen : i < t.flash.length := by
    by_contra hc
    rw [List.get?_eq_none.mpr (by omega)] at hget
    cases hget
  have hfa : target_flash_for_addr t dest = some i := by
    have h0 := flash_for_addr_aux_spec dest t.flash 0 i fi hget hd1 (by omega)
      (fun j1 fj hj hfj => hdisj j1 fj hfj (by omega))
    simpa using h0
  have hfD : (flushDoneOthers env t.flash 0 i).2.1.getD i default = fi := by
    rw [List.getD_eq_get?, flushDoneOthers_get, hget]
    simp
  have hle : min (dest + len) (fi.start + fi.length) = fi.start + fi.length :=
    Nat.min_eq_right (by omega)
  have hsetD : ∀ w1 : FlashRegion,
      ((flushDoneOthers env t.flash 0 i).2.1.set i w1).getD i default = w1 := by
    intro w1
    rw [List.getD_eq_get?, List.get?_set_eq, flushDoneOthers_get, hget]
    rfl
  have hlt : len - (fi.start + fi.length - dest) < len := by omega
  have htrace : (target_flash_write env t dest src len).2.2 =
      (flushDoneOthers env t.flash 0 i).2.2 ++
      ((flash_buffered_write env i fi dest
          (src.take (fi.start + fi.length - dest)) (fi.start + fi.length - dest)).2.2 ++
      (((flash_buffered_flush env i (flash_buffered_write env i fi dest
          (src.take (fi.start + fi.length - dest)) (fi.start + fi.length - dest)).2.1).2.2 ++
        (flash_done env i (flash_buffered_flush env i (flash_buffered_write env i fi dest
          (src.take (fi.start + fi.length - dest)) (fi.start + fi.length - dest)).2.1).2.1).2.2) ++
      (write_loop env
        (Target.mk (((flushDoneOthers env t.flash 0 i).2.1.set i
            (flash_buffered_write env i fi dest
              (src.take (fi.start + fi.length - dest)) (fi.start + fi.length - dest)).2.1).set i
            (flash_done env i (flash_buffered_flush env i (flash_buffered_write env i fi dest
              (src.take (fi.start + fi.length - dest)) (fi.start + fi.length - dest)).2.1).2.1).2.1)
          t.flash_mode t.hasEnterHook t.hasExitHook)
        (fi.start + fi.length) (src.drop (fi.start + fi.length - dest))
        (len - (fi.start + fi.length - dest))
        (true && (flushDoneOthers env t.flash 0 i).1 &&
          (flash_buffered_write env i fi dest
            (src.take (fi.start + fi.length - dest)) (fi.start + fi.length - dest)).1 &&
          ((flash_buffered_flush env i (flash_buffered_write env i fi dest
            (src.take (fi.start + fi.length - dest)) (fi.start + fi.length - dest)).2.1).1 &&
          (flash_done env i (flash_buffered_flush env i (flash_buffered_write env i fi dest
            (src.take (fi.start + fi.length - dest)) (fi.start + fi.length - dest)).2.1).2.1).1))).2.2)) := by
    unfold target_flash_write
    rw [henter]
    dsimp only
    rw [if_pos rfl]
    rw [write_loop, if_neg hlennz]
    simp only [hfa]
    rw [hfD, hle, if_pos rfl]
    rw [hsetD]
    rw [dif_pos hlt]
    dsimp only
    simp only [List.nil_append, List.append_assoc]
  set W := flash_buffered_write env i fi dest
    (src.take (fi.start + fi.length - dest)) (fi.start + fi.length - dest) with hWdef
  set FL := flash_buffered_flush env i W.2.1 with hFLdef
  set D := flash_done env i FL.2.1 with hDdef
  set O := flushDoneOthers env t.flash 0 i with hOdef
  set R := write_loop env
    (Target.mk ((O.2.1.set i W.2.1).set i D.2.1) t.flash_mode t.hasEnterHook
      t.hasExitHook)
    (fi.start + fi.length) (src.drop (fi.start + fi.length - dest))
    (len - (fi.start + fi.length - dest))
    (true && O.1 && W.1 && (FL.1 && D.1)) with hRdef
  have htrace2 : (target_flash_write env t dest src len).2.2 =
      (O.2.2 ++ (W.2.2 ++ (FL.2.2 ++ D.2.2))) ++ R.2.2 := by
    rw [htrace]
    simp only [List.append_assoc]
  have hLL0 : 0 < fi.start + fi.length - dest := by omega
  have hfbwP := fbw_pending env i kw hkw fi dest
    (src.take (fi.start + fi.length - dest)) (fi.start + fi.length - dest)
    hLL0 hwbs (hnone i fi hget) hmal (by omega)
  rw [← hWdef] at hfbwP
  have hgeomW := fbw_geom env i fi dest
    (src.take (fi.start + fi.length - dest)) (fi.start + fi.length - dest)
  rw [← hWdef] at hgeomW
  obtain ⟨B, hB⟩ := Option.isSome_iff_exists.mp hfbwP.1
  have hp : (flash_prepare env i W.2.1).1 = true := by
    apply flash_prepare_succeeds
    intro hh
    rw [hgeomW.2.2.2.2.2.2.1] at hh
    exact hprep hh
  have hready : FL.2.1.ready = true := by
    rw [hFLdef]
    exact flush_ready_after env i W.2.1 B hB hfbwP.2.1 hfbwP.2.2.1
      hfbwP.2.2.2.1 hp
  have hgeomFL := flush_geom env i W.2.1
  rw [← hFLdef] at hgeomFL
  have hgeomD := flash_done_preserves env i FL.2.1
  rw [← hDdef] at hgeomD
  have hbufD : D.2.1.buf = none := by
    rw [hDdef]
    exact flash_done_buf_none env i FL.2.1 hready
  have hTget : ((O.2.1.set i W.2.1).set i D.2.1).get? i = some D.2.1 := by
    rw [hOdef, List.get?_set_eq, List.get?_set_eq, flushDoneOthers_get, hget]
    rfl
  have hR2 : ∀ e ∈ R.2.2, isWriteTo i e = false := by
    rw [hRdef]
    apply write_loop_no_writes_to env i
    intro g hg
    rw [show (Target.mk ((O.2.1.set i W.2.1).set i D.2.1) t.flash_mode
        t.hasEnterHook t.hasExitHook).flash = (O.2.1.set i W.2.1).set i D.2.1
      from rfl, hTget] at hg
    obtain rfl : g = D.2.1 := (Option.some.inj hg).symm
    refine ⟨?_, hbufD⟩
    rw [hgeomD.1, hgeomD.2.1, hgeomFL.1, hgeomFL.2.1, hgeomW.1, hgeomW.2.1]
  have hA : ∀ e ∈ O.2.2 ++ (W.2.2 ++ (FL.2.2 ++ D.2.2)),
      isWriteTo j e = false := by
    intro e he
    simp only [List.mem_append] at he
    rcases he with ho | hw | hfl | hd
    · refine isWriteTo_of_not_isWrite j e ?_
      rw [hOdef] at ho
      exact flushDoneOthers_no_writes env t.flash 0 i hnone e ho
    · rw [hWdef] at hw
      rcases events_flash_buffered_write_shape env i fi dest
        (src.take (fi.start + fi.length - dest)) (fi.start + fi.length - dest)
        e hw with h1 | ⟨x, d, h1⟩
      · subst h1
        rfl
      · subst h1
        simp [isWriteTo]
        omega
    · rw [hFLdef] at hfl
      rcases events_flush_shape env i W.2.1 e hfl with h1 | ⟨x, d, h1⟩
      · subst h1
        rfl
      · subst h1
        simp [isWriteTo]
        omega
    · rw [hDdef] at hd
      have h1 := events_flash_done_shape env i FL.2.1 e hd
      subst h1
      rfl
  have hws2 : W.2.1.writesize = 2 ^ kv := hgeomW.2.2.2.1.trans hws
  obtain ⟨x, d, hmem⟩ := flush_emits env i kv hkv W.2.1 B hB hws2
    hfbwP.2.1 hfbwP.2.2.1 hfbwP.2.2.2.1 hfbwP.2.2.2.2 hp
  rw [← hFLdef] at hmem
  refine ⟨?_, ?_, ?_⟩
  · have hmem2 : Event.writeCall i x d ∈
        (target_flash_write env t dest src len).2.2 := by
      rw [htrace2]
      exact List.mem_append.mpr (Or.inl (List.mem_append.mpr (Or.inr
        (List.mem_append.mpr (Or.inr (List.mem_append.mpr (Or.inl hmem)))))))
    obtain ⟨p, hp2⟩ := List.get?_of_mem hmem2
    exact ⟨p, x, d, hp2⟩
  · intro p q pa pd qa qd hp1 hq1
    rw [htrace2] at hp1 hq1
    exact append_order_split _ _ i j hA hR2 p q pa pd qa qd hp1 hq1
  · intro hdn
    have hdoneFL : FL.2.1.hasDone = true := by
      rw [hgeomFL.2.2.2.2.2.2.2.1, hgeomW.2.2.2.2.2.2.2]
      exact hdn
    have hD22 : D.2.2 = [Event.doneCall i] := by
      rw [hDdef]
      exact flash_done_emits env i FL.2.1 hready hdoneFL
    have htrace3 : (target_flash_write env t dest src len).2.2 =
        (O.2.2 ++ (W.2.2 ++ FL.2.2)) ++ (Event.doneCall i :: R.2.2) := by
      rw [htrace, hD22]
      simp only [List.append_assoc, List.cons_append, List.nil_append]
    have hP : ∀ e ∈ O.2.2 ++ (W.2.2 ++ FL.2.2), isWriteTo j e = false := by
      intro e he
      apply hA
      simp only [List.mem_append] at he ⊢
      rcases he with ho | hw | hfl
      · exact Or.inl ho
      · exact Or.inr (Or.inl hw)
      · exact Or.inr (Or.inr (Or.inl hfl))
    have hmain := done_before_writes (O.2.2 ++ (W.2.2 ++ FL.2.2)) R.2.2 i j hP
    refine ⟨(O.2.2 ++ (W.2.2 ++ FL.2.2)).length, ?_, ?_⟩
    · rw [htrace3]
      exact hmain.1
    · intro q qa qd hq1
      rw [htrace3] at hq1
      exact hmain.2 q qa qd hq1

theorem C3_witness :
    (∃ p a d,
      ((target_flash_write envOk twoTarget 12 [1, 2, 3, 4, 5, 6, 7, 8] 8).2.2).get? p =
        some (Event.writeCall 0 a d)) ∧
    (∀ p q pa pd qa qd,
      ((target_flash_write envOk twoTarget 12 [1, 2, 3, 4, 5, 6, 7, 8] 8).2.2).get? p =
        some (Event.writeCall 0 pa pd) →
      ((target_flash_write envOk twoTarget 12 [1, 2, 3, 4, 5, 6, 7, 8] 8).2.2).get? q =
        some (Event.writeCall 1 qa qd) → p < q) ∧
    (twoRegion0.hasDone = true →
      ∃ r, ((target_flash_write envOk twoTarget 12 [1, 2, 3, 4, 5, 6, 7, 8] 8).2.2).get? r =
        some (Event.doneCall 0) ∧
      ∀ q qa qd,
        ((target_flash_write envOk twoTarget 12 [1, 2, 3, 4, 5, 6, 7, 8] 8).2.2).get? q =
          some (Event.writeCall 1 qa qd) → r < q) := by
  exact C3_flush_previous_region_first envOk twoTarget 12 [1, 2, 3, 4, 5, 6, 7, 8] 8
    0 1 3 2 twoRegion0 rfl rfl rfl (by decide) (by decide) (by decide) (by decide)
    (by decide) (by decide) (by decide) (by decide) (by decide)
    (by
      intro m g h
      rcases m with _ | _ | m
      · rw [show twoTarget.flash.get? 0 = some twoRegion0 from rfl] at h
        injection h with h2
        rw [← h2]
        rfl
      · rw [show twoTarget.flash.get? 1 = some twoRegion1 from rfl] at h
        injection h with h2
        rw [← h2]
        rfl
      · rw [show twoTarget.flash.get? (m + 2) = none from rfl] at h
        cases h)
    (by
      intro m g h hne
      rcases m with _ | _ | m
      · exact absurd rfl hne
      · rw [show twoTarget.flash.get? 1 = some twoRegion1 from rfl] at h
        injection h with h2
        rw [← h2]
        decide
      · rw [show twoTarget.flash.get? (m + 2) = none from rfl] at h
        cases h)
    (by decide)

theorem C10_witness :
    (target_enter_flash_mode envOk tinyTarget).1 = true ∧
    tinyTarget.flash_mode = true ∧
    (target_flash_erase envOk tinyTarget 0 32).2.1.flash_mode = true ∧
    (target_flash_write envOk tinyTarget 0 [1, 2] 2).2.1.flash_mode = true ∧
    (target_flash_complete envOk tinyTarget).2.1.flash_mode = false := by
  have h := C10_flash_mode_only_cleared_by_complete envOk tinyTarget 0 32 0 [1, 2] 2
  exact ⟨by decide, rfl, (h.1 (by decide)).1, (h.1 (by decide)).2, h.2 rfl⟩

end TargetFlash
